import Mathlib

/-!
# Verification of the SeaTable n8n node helpers

A shallow embedding of `packages/nodes-base/nodes/SeaTable/GenericFunctions.ts`
together with the column-selection line shared by `SeaTable.node.ts` (list
operation) and `SeaTableTrigger.node.ts` (poll), and the post-fetch part of the
trigger's `poll`.

JavaScript runtime values are modelled by `JVal`:
* numbers are modelled as `Int` (no claim depends on fractional values or NaN);
* objects and functions appearing as *cell values* are modelled by the
  payload-free constructors `vobj` / `vfun`, because every function under
  verification inspects only their shape (`typeof` / `Array.isArray`), never
  their contents;
* a JS object serving as a *record* (a row, a query object) is modelled as an
  association list `Obj` in insertion order, with `objSet` reproducing JS
  assignment (overwrite in place keeps the key's position, fresh keys are
  appended) and `objGet` reproducing member access (missing key = `undefined`).

Unicode NFC normalisation (`String.prototype.normalize`, applied by the
source's `normalize` helper) is modelled as the identity: all claims are
normalisation-independent, and both sides of every comparison go through it
identically.
-/

/-- A JavaScript runtime value, as far as the SeaTable helpers inspect it. -/
inductive JVal where
  | vundef : JVal
  | vnull : JVal
  | vbool : Bool → JVal
  | vnum : Int → JVal
  | vstr : String → JVal
  | varr : List JVal → JVal
  | vobj : JVal
  | vfun : JVal

/-- A JS object in property insertion order (keys unique in any object
actually built by the JS runtime). -/
abbrev Obj : Type := List (String × JVal)

/-- JS member access `o[k]`: the value of the first entry named `k`,
`undefined` when there is none. -/
def objGet (o : Obj) (k : String) : JVal :=
  match List.find? (fun p => p.1 == k) o with
  | some p => p.2
  | none => JVal.vundef

/-- JS `k in o`-style presence of key `k` (as an `Option`, used to state
which keys an object has). -/
def objGetOpt (o : Obj) (k : String) : Option JVal :=
  match List.find? (fun p => p.1 == k) o with
  | some p => some p.2
  | none => none

/-- JS assignment `o[k] = v`: overwrite in place if the key exists
(keeping its position), append otherwise. -/
def objSet (o : Obj) (k : String) (v : JVal) : Obj :=
  if List.any o (fun p => p.1 == k) then
    List.map (fun p => if p.1 == k then (k, v) else p) o
  else
    o ++ [(k, v)]

/-- JS `delete o[k]`. -/
def objDelete (o : Obj) (k : String) : Obj :=
  List.filter (fun p => !(p.1 == k)) o

/-- The keys of an object, in insertion order. -/
def objKeys (o : Obj) : List String :=
  List.map Prod.fst o

/-- JS truthiness of a value (`if (x)`).  `NaN` does not arise because
numbers are modelled as `Int`. -/
def truthy : JVal → Bool
  | JVal.vundef => false
  | JVal.vnull => false
  | JVal.vbool b => b
  | JVal.vnum n => !(n == 0)
  | JVal.vstr s => !(s == "")
  | JVal.varr _ => true
  | JVal.vobj => true
  | JVal.vfun => true

/-- `typeof x === 'string'`. -/
def isStr : JVal → Bool
  | JVal.vstr _ => true
  | _ => false

/-- Whether the value is `undefined`. -/
def isUndef : JVal → Bool
  | JVal.vundef => true
  | _ => false

/-- `schema.internalNames` from `GenericFunctions.ts`. -/
def internalNames : List String :=
  ["_id", "_creator", "_ctime", "_last_modifier", "_mtime", "_seq"]

/-- `schema.rowFetchSegmentLimit` from `GenericFunctions.ts`. -/
def pageSegment : Nat := 1000

/-- A column of the dtable metadata (`IDtableMetadataColumn`). -/
structure MetaColumn where
  key : String
  name : String
  type : String
deriving DecidableEq

-- ### Pagination: `apiRequestAllItems` (GenericFunctions.ts lines 403-423)
--
-- The server is modelled as the sequence of `rows` arrays it answers with
-- (`resps`), one per issued request, in request order.  The do/while loop
--
--     query.start = 0; query.limit = segment;
--     do { responseData = await apiRequest(...);
--          returnData.push.apply(returnData, responseData.rows);
--          query.start = +query.start + segment;
--     } while (responseData.rows && responseData.rows.length > segment - 1);
--
-- becomes `apiAllGo`, which returns the concatenated rows together with the
-- snapshot of the (mutated) query object at the moment of each request.

/-- Numeric value of a query entry (`+query.start`); the loop only ever reads
it after writing a number into it. -/
def jnumOf : JVal → Int
  | JVal.vnum n => n
  | _ => 0

/-- The do/while body of `apiRequestAllItems`: one request per element of
`resps`, stopping after the first response with at most `segment - 1` rows.
Returns (concatenated rows, per-request query snapshots). -/
def apiAllGo {α : Type} : List (List α) → Obj → List α × List Obj
  | [], _ => ([], [])
  | r :: rest, q =>
    let q2 := objSet q "start" (JVal.vnum (jnumOf (objGet q "start") + (pageSegment : Int)))
    if decide (r.length > pageSegment - 1) then
      let p := apiAllGo rest q2
      (r ++ p.1, q :: p.2)
    else
      (r, [q])

/-- `apiRequestAllItems`: initialises `query.start = 0`, `query.limit = 1000`
(overwriting any caller-supplied values) and drains the pages. -/
def apiRequestAllItems {α : Type} (resps : List (List α)) (query : Obj) :
    List α × List Obj :=
  apiAllGo resps (objSet (objSet query "start" (JVal.vnum 0)) "limit"
    (JVal.vnum (pageSegment : Int)))

-- ### Row/column formatting (GenericFunctions.ts lines 167-191)

/-- `rowFormatColumn` (lines 167-181): coerce a cell value to
{null, boolean, number, string, array-of-strings}; everything else
becomes null. -/
def rowFormatColumn (input : JVal) : JVal :=
  match input with
  | JVal.vnull => JVal.vnull
  | JVal.vundef => JVal.vnull
  | JVal.vbool b => JVal.vbool b
  | JVal.vnum n => JVal.vnum n
  | JVal.vstr s => JVal.vstr s
  | JVal.varr xs => if xs.all isStr then JVal.varr xs else JVal.vnull
  | JVal.vobj => JVal.vnull
  | JVal.vfun => JVal.vnull

/-- The value whitelist of C3, written from the spec's words: boolean, number,
string, or an array in which every element is a string. -/
def isWhitelisted : JVal → Bool
  | JVal.vbool _ => true
  | JVal.vnum _ => true
  | JVal.vstr _ => true
  | JVal.varr xs => xs.all isStr
  | _ => false

/-- `rowFormatColumns` (lines 183-187): build a fresh row holding exactly the
requested column names, each passed through `rowFormatColumn`. -/
def rowFormatColumns (row : Obj) (columnNames : List String) : Obj :=
  columnNames.foldl (fun out c => objSet out c (rowFormatColumn (objGet row c))) []

/-- `rowsFormatColumns` (lines 189-191). -/
def rowsFormatColumns (rows : List Obj) (columnNames : List String) : List Obj :=
  rows.map (fun row => rowFormatColumns row columnNames)

-- ### `rowMapColumnsFromKeysToNames` (GenericFunctions.ts lines 193-210)
--
-- The source first moves every truthy reserved internal field from the row
-- into the output (deleting it from the row), then walks the remaining row
-- entries and, for each entry whose key is the key of a metadata column,
-- writes `outRow[column.name] = row[key]`.

/-- First forEach of `rowMapColumnsFromKeysToNames`: the preserved internal
fields (`if (row[name]) { outRow[name] = row[name]; ... }`).  Deleting other
internal keys does not change `row[name]` for a not-yet-visited name, so the
value read is the original row's. -/
def rowMapInternals (row : Obj) : Obj :=
  internalNames.foldl
    (fun o n => if truthy (objGet row n) then objSet o n (objGet row n) else o) []

/-- The row after the first forEach deleted every truthy internal field
(`delete row[name]`). -/
def rowMapStripped (row : Obj) : Obj :=
  internalNames.foldl
    (fun r n => if truthy (objGet r n) then objDelete r n else r) row

/-- `columns.find(c => c.key === key)`. -/
def colOf (columns : List MetaColumn) (k : String) : Option MetaColumn :=
  List.find? (fun c => c.key == k) columns

/-- Second forEach of `rowMapColumnsFromKeysToNames`: for each remaining row
entry, map its key to the column name (`outRow[column.name] = row[key]`);
`rowSrc` is the (already stripped, no longer mutated) row the values are read
from. -/
def mapFold (columns : List MetaColumn) (rowSrc : Obj) (l : Obj) (o : Obj) : Obj :=
  l.foldl
    (fun o kv =>
      match colOf columns kv.1 with
      | some c => objSet o c.name (objGet rowSrc kv.1)
      | none => o) o

/-- `rowMapColumnsFromKeysToNames` (lines 193-210). -/
def rowMapColumnsFromKeysToNames (row : Obj) (columns : List MetaColumn) : Obj :=
  mapFold columns (rowMapStripped row) (rowMapStripped row) (rowMapInternals row)

-- ### Trigger row sequencing, filtering and sorting
-- (GenericFunctions.ts lines 142-156 and 212-221)

/-- The assignment loop of `rowsSequence`:
`for (let i = 0; i < l;) rows.rows[i]._seq = ++i;` — row `i` (0-based)
receives sequence number `i + 1`. -/
def seqAssign : Nat → List Obj → List Obj
  | _, [] => []
  | i, r :: rs => objSet r "_seq" (JVal.vnum ((i : Int) + 1)) :: seqAssign (i + 1) rs

/-- `rowsSequence` (lines 145-156): a no-op when the first row already has a
`_seq` field (only the first row is inspected); otherwise every row is given
`_seq = 1, 2, ...` in its current order. -/
def rowsSequence (rows : List Obj) : List Obj :=
  match rows with
  | [] => []
  | first :: _ =>
    if isUndef (objGet first "_seq") then seqAssign 0 rows else rows

/-- Lexicographic comparison of char lists by code point, the comparison JS
`<`/`>` performs on strings (JS compares UTF-16 code units, which agrees with
code-point order on the Basic Multilingual Plane; the timestamp strings this
is applied to are ASCII). -/
def charListLt : List Char → List Char → Bool
  | [], [] => false
  | [], _ :: _ => true
  | _ :: _, [] => false
  | a :: as, b :: bs =>
    if a.toNat < b.toNat then true
    else if b.toNat < a.toNat then false
    else charListLt as bs

/-- JS string comparison `a < b`. -/
def strLt (a b : String) : Bool :=
  charListLt a.data b.data

/-- The filter predicate of `rowsTimeFilter`:
`const filter = (f: string) => f > startDate` applied to `row[columnName]`.
JS `>` on a string pair is lexicographic comparison; a non-string value
(impossible for the `_ctime`/`_mtime` columns this is used on and outside
every claim's scope) is modelled as not-greater, as JS `undefined > s` is
false. -/
def timeGt : JVal → String → Bool
  | JVal.vstr s, startDate => strLt startDate s
  | _, _ => false

/-- `rowsTimeFilter` (lines 212-216): sequence, then keep rows whose
timestamp column is strictly greater than the cursor. -/
def rowsTimeFilter (rows : List Obj) (columnName : String) (startDate : String) :
    List Obj :=
  (rowsSequence rows).filter (fun row => timeGt (objGet row columnName) startDate)

/-- Sort key projection for the timestamp column of a row (string value;
the default is never reached for the rows in any claim's scope). -/
def jstrOf : JVal → String
  | JVal.vstr s => s
  | _ => ""

/-- Sort key projection for the `_seq` column of a row. -/
def jseqOf : JVal → Int
  | JVal.vnum n => n
  | _ => 0

/-- The comparison implemented by
`_.orderBy(rows, [columnName, '_seq'], ['asc', 'asc'])` on the (timestamp
string, sequence number) sort keys: ascending by the timestamp column, ties
broken by ascending `_seq`. -/
def rowKeyLe (columnName : String) (a b : Obj) : Bool :=
  if strLt (jstrOf (objGet a columnName)) (jstrOf (objGet b columnName)) then true
  else if strLt (jstrOf (objGet b columnName)) (jstrOf (objGet a columnName)) then false
  else decide (jseqOf (objGet a "_seq") ≤ jseqOf (objGet b "_seq"))

/-- `rowKeyLe` as a relation, for use with `List.insertionSort`. -/
def rowKeyRel (columnName : String) (a b : Obj) : Prop :=
  rowKeyLe columnName a b = true

instance rowKeyRelDecidable (columnName : String) : DecidableRel (rowKeyRel columnName) :=
  fun a b => inferInstanceAs (Decidable (rowKeyLe columnName a b = true))

/-- `rowsTimeSort` (lines 218-221): sequence, then stably sort ascending by
(timestamp column, `_seq`).  Lodash's `orderBy` is a stable sort by this
comparison (its final tiebreak is the original index); a stable sort by a
total preorder is unique as a function, so insertion sort is a faithful model
of it. -/
def rowsTimeSort (rows : List Obj) (columnName : String) : List Obj :=
  List.insertionSort (rowKeyRel columnName) (rowsSequence rows)

-- ### `columnNamesToArray` (GenericFunctions.ts lines 130-140)
--
-- The source is the chain
--
--     columnNames
--       ? normalize(columnNames)
--           .split(/\s*((?:[^\\,]*?(?:\\[\s\S])*)*?)\s*(?:,|$)/)
--           .filter(s => s.length)
--           .map(s => s.replace(/\\([\s\S])/gm, (_, $1) => $1))
--           .filter($ => !(1 + ['', ...schema.internalNames].indexOf($)))
--           .filter(($, index, $$) => $$.indexOf($) === index)
--       : []
--
-- `String.prototype.split` with a separator regex runs the ES SplitMatch
-- loop: starting at the previous separator's end `p`, it attempts an
-- anchored match of the separator at `q = p, p+1, p+2, ...`; at the first
-- `q` where the separator matches it emits `substring(p, q)` — the
-- characters skipped by the failed attempts, raw — followed by the capture
-- group of the match, and restarts after the match; if `q` reaches the end
-- of the input first, it emits the raw remainder `substring(p, size)`.
--
-- One attempt of this separator at a fixed position: the leading `\s*`
-- takes plain whitespace, then the lazy group consumes `[^\\,]` characters
-- and `\\[\s\S]` escape pairs — pairing backslashes afresh from the attempt
-- position — up to the first comma scanned as a plain character (lazy: the
-- first one wins) or, when no such comma exists, to the end of the input.
-- The attempt fails exactly when no plain comma is reachable and the scan
-- runs into a final backslash it cannot pair.  The capture is the consumed
-- text with the surrounding plain whitespace absorbed by the two `\s*`
-- (escaped whitespace is part of the group).
--
-- On an input whose every backslash escapes a following character, the
-- attempt at each piece start succeeds, so all emitted pieces are empty and
-- the output is the captures, trimmed.  On an input ending in an unpaired
-- backslash, the attempts at the malformed tail's start fail, and the
-- retries at the following positions re-pair the backslashes from there: a
-- previously escaped comma can become a delimiter, a previously escaping
-- backslash can start a new pair, and the skipped prefix is emitted as a
-- raw, untrimmed piece.
--
-- The stages after the split are modelled following the source chain:
-- `.filter(s => s.length)` drops empty strings, the `.replace` map rewrites
-- every `\c` escape pair to `c` (a dangling final backslash survives, the
-- rewrite only touching pairs), then reserved names are dropped and the
-- result is deduplicated.

/-- One unit of a token between unescaped commas: a plain character (never a
backslash) or a `\c` escape pair. -/
inductive ETok where
  | plain : Char → ETok
  | esc : Char → ETok
deriving DecidableEq

/-- The character class `\s` of JS regexes (ECMA-262 WhiteSpace ∪
LineTerminator). -/
def isJsSpace (c : Char) : Bool :=
  c == ' ' || c == '\t' || c == '\n' || c == '\r' ||
  c.toNat == 0xb || c.toNat == 0xc || c.toNat == 0xa0 ||
  c.toNat == 0x1680 || (0x2000 ≤ c.toNat && c.toNat ≤ 0x200a) ||
  c.toNat == 0x2028 || c.toNat == 0x2029 || c.toNat == 0x202f ||
  c.toNat == 0x205f || c.toNat == 0x3000 || c.toNat == 0xfeff

/-- Whether a token unit is plain whitespace (escaped characters are never
trimmed: the regex trims via `\s*`, which matches literal whitespace only). -/
def isPlainSpace : ETok → Bool
  | ETok.plain c => isJsSpace c
  | ETok.esc _ => false

/-- Trim plain whitespace from both ends of a token, as the separator
regex's two `\s*` do. -/
def trimToks (ts : List ETok) : List ETok :=
  ((ts.dropWhile isPlainSpace).reverse.dropWhile isPlainSpace).reverse

/-- The character an escape pair or plain character stands for after
`.replace(/\\([\s\S])/gm, (_, $1) => $1)`. -/
def unescTok : ETok → Char
  | ETok.plain c => c
  | ETok.esc c => c

/-- One attempt of the separator regex at a fixed position, on the
remaining input: `none` when the attempt fails (no comma is reachable as a
plain character and the scan runs into an unpairable final backslash);
otherwise the units the group consumed before the delimiter, paired with the
input remaining after a comma delimiter (`none` when the delimiter was the
end of the input, the attempt having consumed everything). -/
def scanTok : List Char → Option (List ETok × Option (List Char))
  | [] => some ([], none)
  | ['\\'] => none
  | '\\' :: c :: rest =>
    match scanTok rest with
    | none => none
    | some (ts, r) => some (ETok.esc c :: ts, r)
  | ',' :: rest => some ([], some rest)
  | c :: rest =>
    match scanTok rest with
    | none => none
    | some (ts, r) => some (ETok.plain c :: ts, r)

/-- The raw text a unit list was scanned from. -/
def escRender : List ETok → List Char
  | [] => []
  | ETok.plain c :: ts => c :: escRender ts
  | ETok.esc c :: ts => '\\' :: c :: escRender ts

/-- `.replace(/\\([\s\S])/gm, (_, $1) => $1)`: rewrite every `\c` pair,
scanning left to right, to `c`; a final unpaired backslash stays. -/
def unescChars : List Char → List Char
  | [] => []
  | '\\' :: c :: rest => c :: unescChars rest
  | c :: rest => c :: unescChars rest

/-- Whether every backslash of the input escapes a following character —
equivalently, whether the left-to-right pairing does not leave an unpaired
backslash at the very end. -/
def noDanglingBackslash : List Char → Bool
  | [] => true
  | ['\\'] => false
  | '\\' :: _ :: rest => noDanglingBackslash rest
  | _ :: rest => noDanglingBackslash rest

/-- A unit whose plain character is not a backslash — true of every unit
`scanTok` emits, a backslash being always consumed as an escape pair (or
failing the attempt). -/
def etokNoBS : ETok → Bool
  | ETok.plain c => !(c == '\\')
  | ETok.esc _ => true

/-- The ES split loop for the separator regex: attempt a match at each
position (`scanTok`); on failure move the skipped character into the
pending raw piece and retry one position later; on a comma-delimited match
emit the pending piece and the trimmed capture (still escaped: the
unescaping `.replace` is a later stage) and restart after the comma; on an
end-delimited match emit the pending piece, the trimmed capture and the
empty final piece; at the end of the input emit the pending raw piece.  The
fuel is an upper bound on the remaining length, so the cutoff is never
reached. -/
def jsSplitGo : Nat → List Char → List Char → List String → List String
  | _, [], skip, acc => (String.mk skip.reverse :: acc).reverse
  | 0, _ :: _, skip, acc => (String.mk skip.reverse :: acc).reverse
  | fuel + 1, c :: rest, skip, acc =>
    match scanTok (c :: rest) with
    | none => jsSplitGo fuel rest (c :: skip) acc
    | some (units, restOpt) =>
      match restOpt with
      | some rest2 =>
        jsSplitGo fuel rest2 []
          (String.mk (escRender (trimToks units)) :: String.mk skip.reverse :: acc)
      | none =>
        ("" :: String.mk (escRender (trimToks units))
          :: String.mk skip.reverse :: acc).reverse

/-- `.split(/\s*((?:[^\\,]*?(?:\\[\s\S])*)*?)\s*(?:,|$)/)`: the pieces and
captures of the split, in order, still in raw escaped form. -/
def jsSplit (s : String) : List String :=
  jsSplitGo s.data.length s.data [] []

/-- `.filter(s => s.length)` then
`.map(s => s.replace(/\\([\s\S])/gm, (_, $1) => $1))`:
drop the empty strings, rewrite the escape pairs. -/
def splitPost (l : List String) : List String :=
  (l.filter (fun s => !(s == ""))).map (fun s => String.mk (unescChars s.data))

/-- JS keep-first deduplication:
`.filter(($, index, $$) => $$.indexOf($) === index)`. -/
def dedupKeepFirst (l : List String) : List String :=
  (l.enum.filter (fun p => l.indexOf p.2 == p.1)).map Prod.snd

/-- `columnNamesToArray` (lines 130-140). -/
def columnNamesToArray (columnNames : String) : List String :=
  if columnNames == "" then []
  else
    let toks := splitPost (jsSplit columnNames)
    let toks2 := toks.filter (fun t => !(t == "" || internalNames.contains t))
    dedupKeepFirst toks2

-- Spec-side rendering of C2's words, to compare with `columnNamesToArray`:
-- split on unescaped commas (a backslash escapes the following character),
-- trim each token, unescape, drop empty and reserved tokens, deduplicate
-- keeping first occurrences.  The comparison is made on the inputs where
-- the spec's notion of escaping is well defined — every backslash escapes a
-- *following* character, i.e. the input does not end in an unpaired
-- backslash; the counterexample shows the two sides differ outside it.

/-- Modelled from the spec: splitting on unescaped commas, written as a
direct recursion; the boolean reports an input ending in an unpaired
backslash (the spec's algorithm itself gives such a final backslash no
meaning, and its tokens do not depend on the flag). -/
def specSegs : List Char → List (List ETok) × Bool
  | [] => ([[]], false)
  | ['\\'] => ([[]], true)
  | '\\' :: d :: rest2 =>
    match specSegs rest2 with
    | ([], m) => ([[ETok.esc d]], m)
    | (s :: ss, m) => ((ETok.esc d :: s) :: ss, m)
  | ',' :: rest =>
    let pr := specSegs rest
    ([] :: pr.1, pr.2)
  | c :: rest =>
    match specSegs rest with
    | ([], m) => ([[ETok.plain c]], m)
    | (s :: ss, m) => ((ETok.plain c :: s) :: ss, m)

/-- Modelled from the spec: each token trimmed, unescaped and dropped when
empty. -/
def specTokens : List (List ETok) → List String
  | [] => []
  | seg :: rest =>
    (if (trimToks seg).isEmpty then []
     else [String.mk ((trimToks seg).map unescTok)]) ++ specTokens rest

/-- Modelled from the spec (C2's words): split on unescaped commas, trim,
unescape, drop empties (already absent) and reserved names, deduplicate
keeping first occurrences. -/
def specColumnNamesToArray (s : String) : List String :=
  if s == "" then []
  else
    dedupKeepFirst
      ((specTokens (specSegs s.data).1).filter
        (fun t => !(internalNames.contains t)))

-- ### Final column selection (SeaTable.node.ts lines 208-212 and
-- SeaTableTrigger.node.ts lines 138-140)
--
--     const [{name: defaultColumn}] = dtableColumns;
--     columnNames = [defaultColumn, ...columnNames]
--       .filter((name) => dtableColumns.find((column) => column.name === name));

/-- The shared column-selection line of the list operation and the trigger:
destructuring the first column of an empty column list throws (`none`);
otherwise the first declared column name is prepended to the requested names
and the result is filtered to names present in the metadata.  No
deduplication is performed. -/
def finalColumnNames (dtableColumns : List MetaColumn) (requested : List String) :
    Option (List String) :=
  match dtableColumns with
  | [] => none
  | c0 :: rest =>
    some ((c0.name :: requested).filter
      (fun n => (c0 :: rest).any (fun column => column.name == n)))

-- ### Trigger poll, post-fetch (SeaTableTrigger.node.ts lines 132-145)
--
--     if (Array.isArray(rows.rows) && rows.rows.length) {
--         if (this.getMode() === 'manual' && rows.rows[0][triggerColumn] === undefined) {
--             throw new NodeOperationError(...);
--         }
--         rowsTimeFilter(rows, triggerColumn, startDate);
--         rowsTimeSort(rows, triggerColumn);
--         const [{name: defaultColumn}] = dtableColumns;
--         columnNames = [defaultColumn, ...columnNames].filter(...);
--         rowsFormatColumns(rows, columnNames);
--         return [this.helpers.returnJsonArray(rows.rows)];
--     }
--     return null;
--
-- `apiRequestAllItems` always returns an object whose `rows` is an array
-- (the accumulator it builds), so the fetched collection is modelled as a
-- list and the `Array.isArray` guard as its emptiness test.

/-- `this.getMode()`: a manual or scheduled poll. -/
inductive PollMode where
  | manual : PollMode
  | schedule : PollMode
deriving DecidableEq

/-- The part of `SeaTableTrigger.poll` that runs after the row fetch:
`null` on an empty collection; on a non-empty one, the manual-mode
missing-column error, then filter, sort, column selection and formatting.
Thrown errors are modelled as `Except.error`. -/
def pollAfterFetch (mode : PollMode) (triggerColumn : String)
    (dtableColumns : List MetaColumn) (requestedNames : List String)
    (startDate : String) (rows : List Obj) : Except String (Option (List Obj)) :=
  match rows with
  | [] => Except.ok none
  | r0 :: _ =>
    if mode = PollMode.manual ∧ isUndef (objGet r0 triggerColumn) = true then
      Except.error "The Field does not exist."
    else
      let rows2 := rowsTimeSort (rowsTimeFilter rows triggerColumn startDate) triggerColumn
      match finalColumnNames dtableColumns requestedNames with
      | none => Except.error "TypeError: no first column to destructure"
      | some columnNames => Except.ok (some (rowsFormatColumns rows2 columnNames))

-- ### Basic lemmas about the object model

theorem find?_map_set (k : String) (v : JVal) (o : List (String × JVal))
    (h : o.any (fun p => p.1 == k) = true) :
    List.find? (fun p => p.1 == k)
      (List.map (fun p => if p.1 == k then (k, v) else p) o) = some (k, v) := by
  induction o with
  | nil => simp at h
  | cons p t ih =>
    cases hp : p.1 == k with
    | true => simp [List.find?, hp]
    | false =>
      simp only [List.any_cons, hp, Bool.false_or] at h
      simp only [List.map_cons, hp, Bool.false_eq_true, if_false, List.find?, ih h]

theorem find?_append_missing (k : String) (v : JVal) (o : List (String × JVal))
    (h : o.any (fun p => p.1 == k) = false) :
    List.find? (fun p => p.1 == k) (o ++ [(k, v)]) = some (k, v) := by
  induction o with
  | nil => simp [List.find?]
  | cons p t ih =>
    simp only [List.any_cons, Bool.or_eq_false_iff] at h
    simp only [List.cons_append, List.find?, h.1]
    exact ih h.2

theorem find?_map_set_ne (k k' : String) (hne : k' ≠ k) (v : JVal)
    (o : List (String × JVal)) :
    List.find? (fun p => p.1 == k')
      (List.map (fun p => if p.1 == k then (k, v) else p) o) =
    List.find? (fun p => p.1 == k') o := by
  induction o with
  | nil => rfl
  | cons p t ih =>
    cases hp : p.1 == k with
    | true =>
      have hp1 : p.1 = k := by simpa using hp
      have h1 : (k == k') = false := by
        simp only [beq_eq_false_iff_ne]
        exact fun hkk => hne hkk.symm
      have h2 : (p.1 == k') = false := by
        simp only [beq_eq_false_iff_ne, hp1]
        exact fun hkk => hne hkk.symm
      simp only [List.map_cons, hp, if_true, List.find?, h1, h2, ih]
    | false =>
      simp only [List.map_cons, hp, Bool.false_eq_true, if_false, List.find?]
      cases hq : p.1 == k' with
      | true => rfl
      | false => exact ih

theorem find?_append_ne (k k' : String) (hne : k' ≠ k) (v : JVal)
    (o : List (String × JVal)) :
    List.find? (fun p => p.1 == k') (o ++ [(k, v)]) =
    List.find? (fun p => p.1 == k') o := by
  induction o with
  | nil =>
    have h1 : (k == k') = false := by
      simp only [beq_eq_false_iff_ne]
      exact fun hkk => hne hkk.symm
    simp [List.find?, h1]
  | cons p t ih =>
    simp only [List.cons_append, List.find?]
    cases hq : p.1 == k' with
    | true => rfl
    | false => exact ih

theorem objGetOpt_objSet_self (o : Obj) (k : String) (v : JVal) :
    objGetOpt (objSet o k v) k = some v := by
  unfold objSet objGetOpt
  cases ha : List.any o (fun p => p.1 == k) with
  | true => simp only [if_true, find?_map_set k v o ha]
  | false => simp only [Bool.false_eq_true, if_false, find?_append_missing k v o ha]

theorem objGet_eq_objGetOpt (o : Obj) (k : String) :
    objGet o k = (objGetOpt o k).getD JVal.vundef := by
  unfold objGet objGetOpt
  cases List.find? (fun p => p.1 == k) o <;> rfl

theorem objGet_objSet_self (o : Obj) (k : String) (v : JVal) :
    objGet (objSet o k v) k = v := by
  rw [objGet_eq_objGetOpt, objGetOpt_objSet_self]
  rfl

theorem objGetOpt_objSet_ne (o : Obj) (k k' : String) (v : JVal) (h : k' ≠ k) :
    objGetOpt (objSet o k v) k' = objGetOpt o k' := by
  unfold objSet objGetOpt
  cases ha : List.any o (fun p => p.1 == k) with
  | true => simp only [if_true, find?_map_set_ne k k' h v o]
  | false => simp only [Bool.false_eq_true, if_false, find?_append_ne k k' h v o]

theorem objGet_objSet_ne (o : Obj) (k k' : String) (v : JVal) (h : k' ≠ k) :
    objGet (objSet o k v) k' = objGet o k' := by
  rw [objGet_eq_objGetOpt, objGet_eq_objGetOpt, objGetOpt_objSet_ne o k k' v h]

theorem apiAllGo_spec {α : Type} (k : Nat) :
    ∀ (resps : List (List α)) (q : Obj) (s : Int),
      k < resps.length →
      (∀ j, j < k → pageSegment ≤ (resps.getD j []).length) →
      (resps.getD k []).length ≤ pageSegment - 1 →
      objGet q "start" = JVal.vnum s →
      (apiAllGo resps q).1 = (resps.take (k + 1)).flatten ∧
      (apiAllGo resps q).2.length = k + 1 ∧
      (∀ i, i < k + 1 →
        objGet ((apiAllGo resps q).2.getD i []) "start"
          = JVal.vnum (s + i * (pageSegment : Int)) ∧
        (∀ key : String, key ≠ "start" →
          objGetOpt ((apiAllGo resps q).2.getD i []) key = objGetOpt q key)) := by
  induction k with
  | zero =>
    intro resps q s hk hlong hshort hs
    cases resps with
    | nil => simp at hk
    | cons r rest =>
      simp only [List.getD_cons_zero] at hshort
      have hr : (decide (r.length > pageSegment - 1)) = false := by
        simp only [decide_eq_false_iff_not, not_lt]
        exact hshort
      refine ⟨?_, ?_, ?_⟩
      · simp [apiAllGo, hr]
      · simp [apiAllGo, hr]
      · intro i hi
        interval_cases i
        constructor
        · simpa [apiAllGo, hr] using hs
        · intro key _
          simp [apiAllGo, hr]
  | succ k ih =>
    intro resps q s hk hlong hshort hs
    cases resps with
    | nil => simp at hk
    | cons r rest =>
      have h0 : pageSegment ≤ r.length := by
        have h1 := hlong 0 (Nat.succ_pos k)
        simpa using h1
      have hr : (decide (r.length > pageSegment - 1)) = true := by
        simp only [decide_eq_true_eq]
        have hseg : 0 < pageSegment := by norm_num [pageSegment]
        omega
      have hk' : k < rest.length := by
        simpa using Nat.lt_of_succ_lt_succ (by simpa using hk)
      have hlong' : ∀ j, j < k → pageSegment ≤ (rest.getD j []).length := by
        intro j hj
        have h1 := hlong (j + 1) (Nat.succ_lt_succ hj)
        simpa using h1
      have hshort' : (rest.getD k []).length ≤ pageSegment - 1 := by
        simpa using hshort
      have hs2 : objGet (objSet q "start"
          (JVal.vnum (jnumOf (objGet q "start") + (pageSegment : Int)))) "start"
          = JVal.vnum (s + pageSegment) := by
        rw [objGet_objSet_self, hs]
        rfl
      obtain ⟨ihrows, ihlen, ihq⟩ :=
        ih rest (objSet q "start"
          (JVal.vnum (jnumOf (objGet q "start") + (pageSegment : Int))))
          (s + pageSegment) hk' hlong' hshort' hs2
      refine ⟨?_, ?_, ?_⟩
      · simp only [apiAllGo, hr, if_true, List.take_succ_cons, List.flatten_cons]
        rw [ihrows]
      · simp only [apiAllGo, hr, if_true, List.length_cons]
        rw [ihlen]
      · intro i hi
        match i with
        | 0 =>
          constructor
          · simpa [apiAllGo, hr] using hs
          · intro key _
            simp [apiAllGo, hr]
        | Nat.succ i =>
          have hi' : i < k + 1 := Nat.lt_of_succ_lt_succ hi
          obtain ⟨ihstart, ihkeys⟩ := ihq i hi'
          constructor
          · have harith : s + (pageSegment : Int) + i * (pageSegment : Int)
                = s + (Nat.succ i) * (pageSegment : Int) := by
              push_cast
              ring
            simp only [apiAllGo, hr, if_true, List.getD_cons_succ]
            rw [← harith]
            exact ihstart
          · intro key hkey
            have h2 := ihkeys key hkey
            have hpass : objGetOpt (objSet q "start"
                (JVal.vnum (jnumOf (objGet q "start") + (pageSegment : Int)))) key
                = objGetOpt q key :=
              objGetOpt_objSet_ne q "start" key _ hkey
            simp only [apiAllGo, hr, if_true, List.getD_cons_succ]
            rw [← hpass]
            exact h2

/-- C1: `apiRequestAllItems` issues page requests with `query.start = 0, 1000,
2000, ...` and `query.limit = 1000`, concatenates the `rows` arrays of the
responses in request order, and stops after the first response whose `rows`
array has length at most `999 = pageSegment - 1` (`k` being the index of that
first short response). -/
theorem apiRequestAllItems_spec {α : Type} (resps : List (List α)) (q : Obj)
    (k : Nat) (hk : k < resps.length)
    (hlong : ∀ j, j < k → pageSegment ≤ (resps.getD j []).length)
    (hshort : (resps.getD k []).length ≤ pageSegment - 1) :
    (apiRequestAllItems resps q).2.length = k + 1 ∧
    (∀ i, i < k + 1 →
      objGet ((apiRequestAllItems resps q).2.getD i []) "start"
        = JVal.vnum ((i : Int) * (pageSegment : Int)) ∧
      objGet ((apiRequestAllItems resps q).2.getD i []) "limit"
        = JVal.vnum (pageSegment : Int)) ∧
    (apiRequestAllItems resps q).1 = (resps.take (k + 1)).flatten := by
  unfold apiRequestAllItems
  have hq0start : objGet (objSet (objSet q "start" (JVal.vnum 0)) "limit"
      (JVal.vnum (pageSegment : Int))) "start" = JVal.vnum 0 := by
    rw [objGet_objSet_ne _ _ _ _ (by decide), objGet_objSet_self]
  obtain ⟨hrows, hlen, hqs⟩ :=
    apiAllGo_spec k resps
      (objSet (objSet q "start" (JVal.vnum 0)) "limit" (JVal.vnum (pageSegment : Int)))
      0 hk hlong hshort hq0start
  refine ⟨hlen, ?_, hrows⟩
  intro i hi
  obtain ⟨hstart, hkeys⟩ := hqs i hi
  constructor
  · rw [show ((i : Int) * (pageSegment : Int)) = 0 + (i : Int) * (pageSegment : Int) by ring]
    exact hstart
  · have hlim := hkeys "limit" (by decide)
    rw [objGetOpt_objSet_self] at hlim
    rw [objGet_eq_objGetOpt, hlim]
    rfl

/-- Witness for C1 at the claim's own examples: responses of 1000, 1000 and
500 rows produce exactly three requests and a 2500-row result; a first
response of exactly 999 rows produces exactly one request and 999 rows; a
first response of exactly 1000 rows produces a second request. -/
theorem apiRequestAllItems_spec_witness :
    (apiRequestAllItems
        [List.replicate 1000 (0 : Nat), List.replicate 1000 0, List.replicate 500 0]
        ([] : Obj)).2.length = 3 ∧
    (apiRequestAllItems
        [List.replicate 1000 (0 : Nat), List.replicate 1000 0, List.replicate 500 0]
        ([] : Obj)).1.length = 2500 ∧
    (apiRequestAllItems [List.replicate 999 (0 : Nat)] ([] : Obj)).2.length = 1 ∧
    (apiRequestAllItems [List.replicate 999 (0 : Nat)] ([] : Obj)).1.length = 999 ∧
    (apiRequestAllItems [List.replicate 1000 (0 : Nat), []] ([] : Obj)).2.length = 2 := by
  have h3 := apiRequestAllItems_spec
    [List.replicate 1000 (0 : Nat), List.replicate 1000 0, List.replicate 500 0]
    ([] : Obj) 2 (by norm_num)
    (by
      intro j hj
      interval_cases j <;>
        simp only [List.getD_cons_zero, List.getD_cons_succ, List.length_replicate,
          pageSegment] <;> norm_num)
    (by
      simp only [List.getD_cons_zero, List.getD_cons_succ, List.length_replicate, pageSegment]
      norm_num)
  have h1 := apiRequestAllItems_spec [List.replicate 999 (0 : Nat)] ([] : Obj) 0
    (by norm_num) (by intro j hj; omega)
    (by
      simp only [List.getD_cons_zero, List.length_replicate, pageSegment]
      norm_num)
  have h2 := apiRequestAllItems_spec [List.replicate 1000 (0 : Nat), []] ([] : Obj) 1
    (by norm_num)
    (by
      intro j hj
      interval_cases j
      simp only [List.getD_cons_zero, List.length_replicate, pageSegment]
      norm_num)
    (by
      simp only [List.getD_cons_succ, List.getD_cons_zero, List.length_nil, pageSegment]
      norm_num)
  refine ⟨h3.1, ?_, h1.1, ?_, h2.1⟩
  · rw [h3.2.2]
    simp only [List.take, List.flatten_cons, List.flatten_nil, List.length_append,
      List.length_replicate, List.length_nil]
  · rw [h1.2.2]
    simp only [List.take, List.flatten_cons, List.flatten_nil, List.length_append,
      List.length_replicate, List.length_nil]

/-- C10: `apiRequestAllItems` overwrites the query's `start` entry with 0 and
its `limit` entry with 1000 before the first page request, so any
caller-provided `start` or `limit` value is ignored, while every other entry
of the caller's query object is passed through unchanged to every page
request.  (The in-place mutation of the caller's object is modelled
value-wise: each page request's query snapshot is the caller's object with
`start`/`limit` overwritten.) -/
theorem apiRequestAllItems_query_passthrough {α : Type} (resps : List (List α))
    (q : Obj) (k : Nat) (hk : k < resps.length)
    (hlong : ∀ j, j < k → pageSegment ≤ (resps.getD j []).length)
    (hshort : (resps.getD k []).length ≤ pageSegment - 1) :
    (apiRequestAllItems resps q).2.length = k + 1 ∧
    (∀ i, i < k + 1 →
      objGet ((apiRequestAllItems resps q).2.getD i []) "start"
        = JVal.vnum ((i : Int) * (pageSegment : Int)) ∧
      objGet ((apiRequestAllItems resps q).2.getD i []) "limit"
        = JVal.vnum (pageSegment : Int) ∧
      (∀ key : String, key ≠ "start" → key ≠ "limit" →
        objGetOpt ((apiRequestAllItems resps q).2.getD i []) key = objGetOpt q key)) := by
  unfold apiRequestAllItems
  have hq0start : objGet (objSet (objSet q "start" (JVal.vnum 0)) "limit"
      (JVal.vnum (pageSegment : Int))) "start" = JVal.vnum 0 := by
    rw [objGet_objSet_ne _ _ _ _ (by decide), objGet_objSet_self]
  obtain ⟨hrows, hlen, hqs⟩ :=
    apiAllGo_spec k resps
      (objSet (objSet q "start" (JVal.vnum 0)) "limit" (JVal.vnum (pageSegment : Int)))
      0 hk hlong hshort hq0start
  refine ⟨hlen, ?_⟩
  intro i hi
  obtain ⟨hstart, hkeys⟩ := hqs i hi
  refine ⟨?_, ?_, ?_⟩
  · rw [show ((i : Int) * (pageSegment : Int)) = 0 + (i : Int) * (pageSegment : Int) by ring]
    exact hstart
  · have hlim := hkeys "limit" (by decide)
    rw [objGetOpt_objSet_self] at hlim
    rw [objGet_eq_objGetOpt, hlim]
    rfl
  · intro key hks hkl
    have h2 := hkeys key hks
    rw [objGetOpt_objSet_ne _ _ _ _ hkl, objGetOpt_objSet_ne _ _ _ _ hks] at h2
    exact h2

/-- Witness for C10: a caller query carrying `table_name`, a stale `start`
of 77 and a stale `limit` of 5 is sent with `start = 0`, `limit = 1000` and
`table_name` unchanged. -/
theorem apiRequestAllItems_query_passthrough_witness :
    objGet ((apiRequestAllItems [List.replicate 500 (0 : Nat)]
        [("table_name", JVal.vstr "Tbl"), ("start", JVal.vnum 77),
         ("limit", JVal.vnum 5)]).2.getD 0 []) "start" = JVal.vnum 0 ∧
    objGet ((apiRequestAllItems [List.replicate 500 (0 : Nat)]
        [("table_name", JVal.vstr "Tbl"), ("start", JVal.vnum 77),
         ("limit", JVal.vnum 5)]).2.getD 0 []) "limit" = JVal.vnum 1000 ∧
    objGetOpt ((apiRequestAllItems [List.replicate 500 (0 : Nat)]
        [("table_name", JVal.vstr "Tbl"), ("start", JVal.vnum 77),
         ("limit", JVal.vnum 5)]).2.getD 0 []) "table_name"
      = some (JVal.vstr "Tbl") := by
  obtain ⟨hlen, h⟩ := apiRequestAllItems_query_passthrough
    [List.replicate 500 (0 : Nat)]
    [("table_name", JVal.vstr "Tbl"), ("start", JVal.vnum 77), ("limit", JVal.vnum 5)]
    0 (by norm_num) (by intro j hj; omega)
    (by
      simp only [List.getD_cons_zero, List.length_replicate, pageSegment]
      norm_num)
  obtain ⟨hstart, hlim, hpass⟩ := h 0 (by norm_num)
  refine ⟨?_, ?_, ?_⟩
  · rw [hstart]
    norm_num
  · rw [hlim]
    norm_num [pageSegment]
  · have h4 := hpass "table_name" (by decide) (by decide)
    rw [h4]
    rfl

theorem rowFormatColumn_eq_ite (v : JVal) :
    rowFormatColumn v = if isWhitelisted v = true then v else JVal.vnull := by
  cases v with
  | varr xs =>
    cases hxs : xs.all isStr with
    | true => simp [rowFormatColumn, isWhitelisted, hxs]
    | false => simp [rowFormatColumn, isWhitelisted, hxs]
  | _ => simp [rowFormatColumn, isWhitelisted]

theorem objSet_of_not_has (o : Obj) (k : String) (v : JVal)
    (h : List.any o (fun p => p.1 == k) = false) :
    objSet o k v = o ++ [(k, v)] := by
  unfold objSet
  simp only [h, Bool.false_eq_true, if_false]

/-- Invariant of the `forEach`/`foldl` that builds a formatted row: with
pairwise-distinct fresh names, keys are appended in order and each name maps
to `f` of itself. -/
theorem foldl_objSet_spec (f : String → JVal) :
    ∀ (names : List String) (acc : Obj),
      names.Nodup →
      (∀ c ∈ names, List.any acc (fun p => p.1 == c) = false) →
      objKeys (names.foldl (fun out c => objSet out c (f c)) acc)
        = objKeys acc ++ names ∧
      (∀ c ∈ names,
        objGetOpt (names.foldl (fun out c => objSet out c (f c)) acc) c = some (f c)) ∧
      (∀ c, c ∉ names →
        objGetOpt (names.foldl (fun out c => objSet out c (f c)) acc) c
          = objGetOpt acc c) := by
  intro names
  induction names with
  | nil =>
    intro acc _ _
    refine ⟨by simp, by simp, by simp [List.foldl]⟩
  | cons c rest ih =>
    intro acc hnodup hfresh
    have hc : List.any acc (fun p => p.1 == c) = false := hfresh c (by simp)
    have hset : objSet acc c (f c) = acc ++ [(c, f c)] := objSet_of_not_has acc c (f c) hc
    have hnodup' : rest.Nodup := (List.nodup_cons.mp hnodup).2
    have hcnotin : c ∉ rest := (List.nodup_cons.mp hnodup).1
    have hfresh' : ∀ c' ∈ rest, List.any (objSet acc c (f c)) (fun p => p.1 == c') = false := by
      intro c' hc'
      rw [hset]
      simp only [List.any_append, Bool.or_eq_false_iff]
      constructor
      · exact hfresh c' (List.mem_cons_of_mem c hc')
      · simp only [List.any_cons, List.any_nil, Bool.or_false, beq_eq_false_iff_ne]
        intro hcc
        exact hcnotin (hcc ▸ hc')
    obtain ⟨ihkeys, ihmem, ihout⟩ := ih (objSet acc c (f c)) hnodup' hfresh'
    refine ⟨?_, ?_, ?_⟩
    · simp only [List.foldl_cons]
      rw [ihkeys, hset]
      simp [objKeys]
    · intro c' hc'
      rcases List.mem_cons.mp hc' with hceq | hcmem
      · subst hceq
        simp only [List.foldl_cons]
        rw [ihout c' hcnotin, objGetOpt_objSet_self]
      · simp only [List.foldl_cons]
        exact ihmem c' hcmem
    · intro c' hc'
      have hc'rest : c' ∉ rest := fun h => hc' (List.mem_cons_of_mem c h)
      have hc'ne : c' ≠ c := fun h => hc' (h ▸ List.mem_cons_self c rest)
      simp only [List.foldl_cons]
      rw [ihout c' hc'rest, objGetOpt_objSet_ne acc c c' (f c) hc'ne]

/-- C3: for a duplicate-free list of requested column names (JS objects
cannot carry a key twice, so a request list is duplicate-free), the row built
by `rowFormatColumns` has exactly the requested names as keys, in the
requested order, and each value is the row's value for that name when that
value is a boolean, a number, a string or an all-string array, and null
otherwise — in particular a missing key (`objGet` = `undefined`), a null, an
object, a function value or a mixed array all give null, and a missing
requested column is present with value null rather than omitted. -/
theorem rowFormatColumns_spec (row : Obj) (names : List String)
    (hnodup : names.Nodup) :
    objKeys (rowFormatColumns row names) = names ∧
    (∀ c ∈ names,
      objGetOpt (rowFormatColumns row names) c
        = some (if isWhitelisted (objGet row c) = true
                then objGet row c else JVal.vnull)) := by
  obtain ⟨hkeys, hmem, _⟩ :=
    foldl_objSet_spec (fun c => rowFormatColumn (objGet row c)) names []
      hnodup (by intro c _; rfl)
  constructor
  · simpa [objKeys] using hkeys
  · intro c hc
    rw [show rowFormatColumns row names
      = names.foldl (fun out c => objSet out c (rowFormatColumn (objGet row c))) []
      from rfl]
    rw [hmem c hc, rowFormatColumn_eq_ite]

/-- Witness for C3 on a concrete row: a string passes through, an all-string
array passes through, a mixed array, an object, a null and a missing
requested column all come out as null, and the keys are exactly the request
in order. -/
theorem rowFormatColumns_spec_witness :
    objKeys (rowFormatColumns
        [("A", JVal.vstr "x"), ("B", JVal.vnull), ("C", JVal.vobj),
         ("D", JVal.varr [JVal.vstr "a", JVal.vstr "b"]),
         ("E", JVal.varr [JVal.vstr "a", JVal.vnum 1]), ("F", JVal.vfun)]
        ["A", "B", "C", "D", "E", "G"]) = ["A", "B", "C", "D", "E", "G"] ∧
    objGetOpt (rowFormatColumns
        [("A", JVal.vstr "x"), ("B", JVal.vnull), ("C", JVal.vobj),
         ("D", JVal.varr [JVal.vstr "a", JVal.vstr "b"]),
         ("E", JVal.varr [JVal.vstr "a", JVal.vnum 1]), ("F", JVal.vfun)]
        ["A", "B", "C", "D", "E", "G"]) "A" = some (JVal.vstr "x") ∧
    objGetOpt (rowFormatColumns
        [("A", JVal.vstr "x"), ("B", JVal.vnull), ("C", JVal.vobj),
         ("D", JVal.varr [JVal.vstr "a", JVal.vstr "b"]),
         ("E", JVal.varr [JVal.vstr "a", JVal.vnum 1]), ("F", JVal.vfun)]
        ["A", "B", "C", "D", "E", "G"]) "D"
      = some (JVal.varr [JVal.vstr "a", JVal.vstr "b"]) ∧
    objGetOpt (rowFormatColumns
        [("A", JVal.vstr "x"), ("B", JVal.vnull), ("C", JVal.vobj),
         ("D", JVal.varr [JVal.vstr "a", JVal.vstr "b"]),
         ("E", JVal.varr [JVal.vstr "a", JVal.vnum 1]), ("F", JVal.vfun)]
        ["A", "B", "C", "D", "E", "G"]) "E" = some JVal.vnull ∧
    objGetOpt (rowFormatColumns
        [("A", JVal.vstr "x"), ("B", JVal.vnull), ("C", JVal.vobj),
         ("D", JVal.varr [JVal.vstr "a", JVal.vstr "b"]),
         ("E", JVal.varr [JVal.vstr "a", JVal.vnum 1]), ("F", JVal.vfun)]
        ["A", "B", "C", "D", "E", "G"]) "C" = some JVal.vnull ∧
    objGetOpt (rowFormatColumns
        [("A", JVal.vstr "x"), ("B", JVal.vnull), ("C", JVal.vobj),
         ("D", JVal.varr [JVal.vstr "a", JVal.vstr "b"]),
         ("E", JVal.varr [JVal.vstr "a", JVal.vnum 1]), ("F", JVal.vfun)]
        ["A", "B", "C", "D", "E", "G"]) "G" = some JVal.vnull := by
  have h := rowFormatColumns_spec
    [("A", JVal.vstr "x"), ("B", JVal.vnull), ("C", JVal.vobj),
     ("D", JVal.varr [JVal.vstr "a", JVal.vstr "b"]),
     ("E", JVal.varr [JVal.vstr "a", JVal.vnum 1]), ("F", JVal.vfun)]
    ["A", "B", "C", "D", "E", "G"] (by decide)
  refine ⟨h.1, ?_, ?_, ?_, ?_, ?_⟩
  · rw [h.2 "A" (by decide)]
    rfl
  · rw [h.2 "D" (by decide)]
    rfl
  · rw [h.2 "E" (by decide)]
    rfl
  · rw [h.2 "C" (by decide)]
    rfl
  · rw [h.2 "G" (by decide)]
    rfl

-- Lemmas about the conditional-set fold building `rowMapInternals`.

theorem condSet_get (g : String → JVal) :
    ∀ (ns : List String) (acc : Obj), ns.Nodup →
      (∀ n ∈ ns,
        objGetOpt (ns.foldl (fun o n => if truthy (g n) then objSet o n (g n) else o) acc) n
          = if truthy (g n) = true then some (g n) else objGetOpt acc n) ∧
      (∀ n, n ∉ ns →
        objGetOpt (ns.foldl (fun o n => if truthy (g n) then objSet o n (g n) else o) acc) n
          = objGetOpt acc n) := by
  intro ns
  induction ns with
  | nil => intro acc _; exact ⟨by simp, by simp⟩
  | cons n rest ih =>
    intro acc hnodup
    have hnotin : n ∉ rest := (List.nodup_cons.mp hnodup).1
    have hrest : rest.Nodup := (List.nodup_cons.mp hnodup).2
    obtain ⟨ihmem, ihout⟩ :=
      ih (if truthy (g n) then objSet acc n (g n) else acc) hrest
    constructor
    · intro n' hn'
      rcases List.mem_cons.mp hn' with heq | hmem
      · subst heq
        rw [List.foldl_cons, ihout n' hnotin]
        cases ht : truthy (g n') with
        | true => simp only [ht, if_true, objGetOpt_objSet_self]
        | false => simp only [ht, Bool.false_eq_true, if_false]
      · rw [List.foldl_cons, ihmem n' hmem]
        cases ht : truthy (g n') with
        | true => rfl
        | false =>
          simp only [ht, Bool.false_eq_true, if_false]
          have hne : n' ≠ n := fun h => hnotin (h ▸ hmem)
          cases ht2 : truthy (g n) with
          | true => simp only [ht2, if_true, objGetOpt_objSet_ne acc n n' (g n) hne]
          | false => simp only [ht2, Bool.false_eq_true, if_false]
    · intro n' hn'
      have hne : n' ≠ n := fun h => hn' (h ▸ List.mem_cons_self n rest)
      have hrest' : n' ∉ rest := fun h => hn' (List.mem_cons_of_mem n h)
      rw [List.foldl_cons, ihout n' hrest']
      cases ht2 : truthy (g n) with
      | true => simp only [ht2, if_true, objGetOpt_objSet_ne acc n n' (g n) hne]
      | false => simp only [ht2, Bool.false_eq_true, if_false]

theorem objGetOpt_objDelete_ne (o : Obj) (k k' : String) (h : k' ≠ k) :
    objGetOpt (objDelete o k) k' = objGetOpt o k' := by
  unfold objDelete objGetOpt
  induction o with
  | nil => rfl
  | cons p t ih =>
    cases hp : p.1 == k with
    | true =>
      have hp1 : p.1 = k := by simpa using hp
      have hq : (p.1 == k') = false := by
        simp only [beq_eq_false_iff_ne, hp1]
        exact fun hkk => h hkk.symm
      simp only [List.filter_cons, hp, Bool.not_true, Bool.false_eq_true, if_false,
        List.find?, hq, ih]
    | false =>
      simp only [List.filter_cons, hp, Bool.not_false, if_true, List.find?]
      cases hq : p.1 == k' with
      | true => rfl
      | false => exact ih

/-- The stripping pass only deletes internal keys: lookups of any
non-internal key are untouched. -/
theorem rowMapStripped_get (row : Obj) (k : String) (hk : k ∉ internalNames) :
    objGetOpt (rowMapStripped row) k = objGetOpt row k := by
  unfold rowMapStripped
  have main : ∀ (ns : List String) (r : Obj), k ∉ ns →
      objGetOpt (ns.foldl (fun r n => if truthy (objGet r n) then objDelete r n else r) r) k
        = objGetOpt r k := by
    intro ns
    induction ns with
    | nil => intro r _; rfl
    | cons n rest ih =>
      intro r hkns
      have hne : k ≠ n := fun h => hkns (h ▸ List.mem_cons_self n rest)
      have hrest : k ∉ rest := fun h => hkns (List.mem_cons_of_mem n h)
      rw [List.foldl_cons, ih _ hrest]
      cases ht : truthy (objGet r n) with
      | true => simp only [ht, if_true, objGetOpt_objDelete_ne r n k hne]
      | false => simp only [ht, Bool.false_eq_true, if_false]
  exact main internalNames row hk

/-- The stripping pass yields a sublist of the row (it only removes
entries). -/
theorem rowMapStripped_sublist (row : Obj) : (rowMapStripped row).Sublist row := by
  unfold rowMapStripped
  have main : ∀ (ns : List String) (r : Obj),
      (ns.foldl (fun r n => if truthy (objGet r n) then objDelete r n else r) r).Sublist r := by
    intro ns
    induction ns with
    | nil => intro r; exact List.Sublist.refl r
    | cons n rest ih =>
      intro r
      rw [List.foldl_cons]
      cases ht : truthy (objGet r n) with
      | true =>
        simp only [ht, if_true]
        exact (ih (objDelete r n)).trans (List.filter_sublist r)
      | false =>
        simp only [ht, Bool.false_eq_true, if_false]
        exact ih r
  exact main internalNames row

-- Lemmas about the key-to-name mapping fold.

theorem colOf_mem (cols : List MetaColumn) (k : String) (c : MetaColumn)
    (h : colOf cols k = some c) : c ∈ cols ∧ c.key = k := by
  unfold colOf at h
  refine ⟨List.mem_of_find?_eq_some h, ?_⟩
  have := List.find?_some h
  simpa using this

theorem colOf_self (cols : List MetaColumn)
    (hK : (List.map (fun c => c.key) cols).Nodup) (c : MetaColumn) (hc : c ∈ cols) :
    colOf cols c.key = some c := by
  unfold colOf
  induction cols with
  | nil => simp at hc
  | cons d t ih =>
    rcases List.mem_cons.mp hc with heq | hmem
    · subst heq
      simp [List.find?]
    · have hdkey : (d.key == c.key) = false := by
        simp only [beq_eq_false_iff_ne]
        intro hdc
        have h1 : c.key ∈ List.map (fun c => c.key) t := List.mem_map_of_mem _ hmem
        have h2 : d.key ∉ List.map (fun c => c.key) t := (List.nodup_cons.mp hK).1
        exact h2 (hdc ▸ h1)
      simp only [List.find?, hdkey]
      exact ih (List.nodup_cons.mp hK).2 hmem

theorem mapFold_miss (cols : List MetaColumn) (rowSrc : Obj) :
    ∀ (l : Obj) (o : Obj) (n : String),
      (∀ kv ∈ l, ∀ c, colOf cols kv.1 = some c → c.name ≠ n) →
      objGetOpt (mapFold cols rowSrc l o) n = objGetOpt o n := by
  intro l
  induction l with
  | nil => intro o n _; rfl
  | cons kv t ih =>
    intro o n hmiss
    unfold mapFold
    rw [List.foldl_cons]
    cases hc : colOf cols kv.1 with
    | none =>
      simp only [hc]
      exact ih o n (fun kv' h c hcol => hmiss kv' (List.mem_cons_of_mem kv h) c hcol)
    | some c =>
      simp only [hc]
      have hne : n ≠ c.name := fun h =>
        hmiss kv (List.mem_cons_self kv t) c hc h.symm
      rw [show (t.foldl (fun o kv =>
          match colOf cols kv.1 with
          | some c => objSet o c.name (objGet rowSrc kv.1)
          | none => o) (objSet o c.name (objGet rowSrc kv.1)))
        = mapFold cols rowSrc t (objSet o c.name (objGet rowSrc kv.1)) from rfl]
      rw [ih (objSet o c.name (objGet rowSrc kv.1)) n
        (fun kv' h c' hcol => hmiss kv' (List.mem_cons_of_mem kv h) c' hcol)]
      exact objGetOpt_objSet_ne o c.name n (objGet rowSrc kv.1) hne

theorem mapFold_stable (cols : List MetaColumn) (rowSrc : Obj) :
    ∀ (l : Obj) (o : Obj) (n : String) (v : JVal),
      objGetOpt o n = some v →
      (∀ kv ∈ l, ∀ c, colOf cols kv.1 = some c → c.name = n → objGet rowSrc kv.1 = v) →
      objGetOpt (mapFold cols rowSrc l o) n = some v := by
  intro l
  induction l with
  | nil => intro o n v ho _; exact ho
  | cons kv t ih =>
    intro o n v ho hval
    unfold mapFold
    rw [List.foldl_cons]
    cases hc : colOf cols kv.1 with
    | none =>
      simp only [hc]
      exact ih o n v ho (fun kv' h c hcol => hval kv' (List.mem_cons_of_mem kv h) c hcol)
    | some c =>
      simp only [hc]
      rw [show (t.foldl (fun o kv =>
          match colOf cols kv.1 with
          | some c => objSet o c.name (objGet rowSrc kv.1)
          | none => o) (objSet o c.name (objGet rowSrc kv.1)))
        = mapFold cols rowSrc t (objSet o c.name (objGet rowSrc kv.1)) from rfl]
      by_cases hname : c.name = n
      · have hv : objGet rowSrc kv.1 = v :=
          hval kv (List.mem_cons_self kv t) c hc hname
        refine ih _ n v ?_ (fun kv' h c' hcol => hval kv' (List.mem_cons_of_mem kv h) c' hcol)
        rw [hname, hv, objGetOpt_objSet_self]
      · refine ih _ n v ?_ (fun kv' h c' hcol => hval kv' (List.mem_cons_of_mem kv h) c' hcol)
        rw [objGetOpt_objSet_ne o c.name n (objGet rowSrc kv.1) (fun h => hname h.symm)]
        exact ho

theorem mapFold_hit (cols : List MetaColumn) (rowSrc : Obj) :
    ∀ (l : Obj) (o : Obj) (n k0 : String) (c0 : MetaColumn),
      colOf cols k0 = some c0 → c0.name = n →
      (∀ kv ∈ l, ∀ c, colOf cols kv.1 = some c → c.name = n → kv.1 = k0) →
      (∃ kv ∈ l, kv.1 = k0) →
      objGetOpt (mapFold cols rowSrc l o) n = some (objGet rowSrc k0) := by
  intro l
  induction l with
  | nil =>
    intro o n k0 c0 _ _ _ hex
    obtain ⟨kv, hkv, _⟩ := hex
    exact absurd hkv (List.not_mem_nil kv)
  | cons kv t ih =>
    intro o n k0 c0 hcol hname huniq hex
    unfold mapFold
    rw [List.foldl_cons]
    by_cases hk : kv.1 = k0
    · have hc : colOf cols kv.1 = some c0 := by rw [hk]; exact hcol
      simp only [hc]
      rw [show (t.foldl (fun o kv =>
          match colOf cols kv.1 with
          | some c => objSet o c.name (objGet rowSrc kv.1)
          | none => o) (objSet o c0.name (objGet rowSrc kv.1)))
        = mapFold cols rowSrc t (objSet o c0.name (objGet rowSrc kv.1)) from rfl]
      refine mapFold_stable cols rowSrc t _ n (objGet rowSrc k0) ?_ ?_
      · rw [hk, hname, objGetOpt_objSet_self]
      · intro kv' h c' hcol' hname'
        rw [huniq kv' (List.mem_cons_of_mem kv h) c' hcol' hname']
    · have hhead : ∀ c, colOf cols kv.1 = some c → c.name ≠ n := by
        intro c hc hn
        exact hk (huniq kv (List.mem_cons_self kv t) c hc hn)
      have hex' : ∃ kv' ∈ t, kv'.1 = k0 := by
        obtain ⟨kv', hkv', hkk⟩ := hex
        rcases List.mem_cons.mp hkv' with heq | hmem
        · exact absurd (heq ▸ hkk) hk
        · exact ⟨kv', hmem, hkk⟩
      have huniq' : ∀ kv' ∈ t, ∀ c, colOf cols kv'.1 = some c → c.name = n → kv'.1 = k0 :=
        fun kv' h c hc hn => huniq kv' (List.mem_cons_of_mem kv h) c hc hn
      cases hc : colOf cols kv.1 with
      | none =>
        simp only [hc]
        exact ih o n k0 c0 hcol hname huniq' hex'
      | some c =>
        simp only [hc]
        rw [show (t.foldl (fun o kv =>
            match colOf cols kv.1 with
            | some c => objSet o c.name (objGet rowSrc kv.1)
            | none => o) (objSet o c.name (objGet rowSrc kv.1)))
          = mapFold cols rowSrc t (objSet o c.name (objGet rowSrc kv.1)) from rfl]
        exact ih _ n k0 c0 hcol hname huniq' hex'

theorem mapFold_bound (cols : List MetaColumn) (rowSrc : Obj) :
    ∀ (l : Obj) (o : Obj) (n : String),
      objGetOpt (mapFold cols rowSrc l o) n ≠ none →
      objGetOpt o n ≠ none ∨ ∃ kv, kv ∈ l ∧ ∃ c, colOf cols kv.1 = some c ∧ c.name = n := by
  intro l
  induction l with
  | nil => intro o n h; exact Or.inl h
  | cons kv t ih =>
    intro o n h
    unfold mapFold at h
    rw [List.foldl_cons] at h
    cases hc : colOf cols kv.1 with
    | none =>
      simp only [hc] at h
      rcases ih o n h with hacc | ⟨kv', hkv', hc'⟩
      · exact Or.inl hacc
      · exact Or.inr ⟨kv', List.mem_cons_of_mem kv hkv', hc'⟩
    | some c =>
      simp only [hc] at h
      rw [show (t.foldl (fun o kv =>
          match colOf cols kv.1 with
          | some c => objSet o c.name (objGet rowSrc kv.1)
          | none => o) (objSet o c.name (objGet rowSrc kv.1)))
        = mapFold cols rowSrc t (objSet o c.name (objGet rowSrc kv.1)) from rfl] at h
      rcases ih _ n h with hacc | ⟨kv', hkv', hc'⟩
      · by_cases hname : n = c.name
        · exact Or.inr ⟨kv, List.mem_cons_self kv t, c, hc, hname.symm⟩
        · rw [objGetOpt_objSet_ne o c.name n (objGet rowSrc kv.1) hname] at hacc
          exact Or.inl hacc
      · exact Or.inr ⟨kv', List.mem_cons_of_mem kv hkv', hc'⟩

theorem objGetOpt_ne_none_of_mem (o : Obj) (kv : String × JVal) (h : kv ∈ o) :
    objGetOpt o kv.1 ≠ none := by
  unfold objGetOpt
  induction o with
  | nil => exact absurd h (List.not_mem_nil kv)
  | cons p t ih =>
    cases hp : p.1 == kv.1 with
    | true => simp [List.find?, hp]
    | false =>
      have hmem : kv ∈ t := by
        rcases List.mem_cons.mp h with heq | hm
        · subst heq
          simp at hp
        · exact hm
      simp only [List.find?, hp]
      exact ih hmem

/-- C7: the append round-trip.  For metadata with pairwise-distinct column
names and keys, none of them reserved internal field names, mapping a row
through `rowMapColumnsFromKeysToNames` and then formatting it with the
corresponding column names reproduces, for every column whose key the row
holds a whitelisted value under, exactly the value the original row held
under that column's key. -/
theorem rowMapColumnsFromKeysToNames_roundtrip (cols : List MetaColumn) (row : Obj)
    (hN : (List.map (fun c => c.name) cols).Nodup)
    (hK : (List.map (fun c => c.key) cols).Nodup)
    (hNI : ∀ c ∈ cols, c.name ∉ internalNames)
    (hKI : ∀ c ∈ cols, c.key ∉ internalNames) :
    ∀ c ∈ cols, ∀ v : JVal,
      objGetOpt row c.key = some v → isWhitelisted v = true →
      objGetOpt (rowFormatColumns (rowMapColumnsFromKeysToNames row cols)
          (List.map (fun c => c.name) cols)) c.name
        = objGetOpt row c.key := by
  intro c hc v hv hw
  have h1 : objGetOpt (rowMapStripped row) c.key = some v := by
    rw [rowMapStripped_get row c.key (hKI c hc), hv]
  have h2 : objGet (rowMapStripped row) c.key = v := by
    rw [objGet_eq_objGetOpt, h1]
    rfl
  have h3 : ∃ kv ∈ rowMapStripped row, kv.1 = c.key := by
    unfold objGetOpt at h1
    cases hf : List.find? (fun p => p.1 == c.key) (rowMapStripped row) with
    | none => rw [hf] at h1; exact absurd h1 (by simp)
    | some p =>
      refine ⟨p, List.mem_of_find?_eq_some hf, ?_⟩
      have := List.find?_some hf
      simpa using this
  have hcol : colOf cols c.key = some c := colOf_self cols hK c hc
  have huniq : ∀ kv ∈ rowMapStripped row, ∀ c',
      colOf cols kv.1 = some c' → c'.name = c.name → kv.1 = c.key := by
    intro kv _ c' hc' hname
    obtain ⟨hc'mem, hc'key⟩ := colOf_mem cols kv.1 c' hc'
    have hcc : c' = c := List.inj_on_of_nodup_map hN hc'mem hc hname
    rw [← hc'key, hcc]
  have h5 : objGetOpt (rowMapColumnsFromKeysToNames row cols) c.name = some v := by
    unfold rowMapColumnsFromKeysToNames
    rw [mapFold_hit cols (rowMapStripped row) (rowMapStripped row) (rowMapInternals row)
      c.name c.key c hcol rfl huniq h3, h2]
  obtain ⟨_, hmem, _⟩ := foldl_objSet_spec
    (fun n => rowFormatColumn (objGet (rowMapColumnsFromKeysToNames row cols) n))
    (List.map (fun c => c.name) cols) [] hN (fun _ _ => rfl)
  have hcnamemem : c.name ∈ List.map (fun c => c.name) cols := List.mem_map_of_mem _ hc
  rw [show rowFormatColumns (rowMapColumnsFromKeysToNames row cols)
      (List.map (fun c => c.name) cols)
    = (List.map (fun c => c.name) cols).foldl
        (fun out n => objSet out n
          (rowFormatColumn (objGet (rowMapColumnsFromKeysToNames row cols) n))) []
    from rfl]
  rw [hmem c.name hcnamemem]
  have hmerged : objGet (rowMapColumnsFromKeysToNames row cols) c.name = v := by
    rw [objGet_eq_objGetOpt, h5]
    rfl
  rw [hmerged, rowFormatColumn_eq_ite, if_pos hw, hv]

/-- Witness for C7: a row keyed by the internal column key `0001` holding the
string `x`, mapped through metadata naming that key `Name`, then formatted
with `[Name]`, yields `x` back under `Name`. -/
theorem rowMapColumnsFromKeysToNames_roundtrip_witness :
    objGetOpt (rowFormatColumns
        (rowMapColumnsFromKeysToNames
          [("0001", JVal.vstr "x"), ("_id", JVal.vstr "r1")]
          [MetaColumn.mk "0001" "Name" "text"])
        (List.map (fun c => c.name) [MetaColumn.mk "0001" "Name" "text"]))
      "Name" = some (JVal.vstr "x") := by
  have h := rowMapColumnsFromKeysToNames_roundtrip
    [MetaColumn.mk "0001" "Name" "text"]
    [("0001", JVal.vstr "x"), ("_id", JVal.vstr "r1")]
    (by decide) (by decide) (by decide) (by decide)
    (MetaColumn.mk "0001" "Name" "text") (by decide)
    (JVal.vstr "x") rfl rfl
  exact h.trans rfl

/-- C9: the output of `rowMapColumnsFromKeysToNames` contains a reserved
internal field exactly when that field's value in the input row is truthy
(then with that value), and contains no other key except names of metadata
columns whose key occurs in the row; every other input key is dropped.
Metadata column names are assumed not to be reserved internal names (the
reserved set is "never treated as user columns"). -/
theorem rowMapColumnsFromKeysToNames_keys (row : Obj) (cols : List MetaColumn)
    (hNI : ∀ c ∈ cols, c.name ∉ internalNames) :
    (∀ k ∈ internalNames,
      objGetOpt (rowMapColumnsFromKeysToNames row cols) k
        = if truthy (objGet row k) = true then some (objGet row k) else none) ∧
    (∀ k : String, objGetOpt (rowMapColumnsFromKeysToNames row cols) k ≠ none →
      k ∈ internalNames ∨ ∃ c ∈ cols, c.name = k ∧ objGetOpt row c.key ≠ none) := by
  have hint : ∀ k,
      objGetOpt (rowMapInternals row) k
        = if k ∈ internalNames then
            (if truthy (objGet row k) = true then some (objGet row k) else none)
          else none := by
    intro k
    obtain ⟨hmem, hout⟩ := condSet_get (objGet row) internalNames [] (by decide)
    by_cases hk : k ∈ internalNames
    · rw [if_pos hk]
      rw [show rowMapInternals row = internalNames.foldl
        (fun o n => if truthy (objGet row n) then objSet o n (objGet row n) else o) []
        from rfl]
      rw [hmem k hk]
      cases ht : truthy (objGet row k) with
      | true => simp only [ht, if_true]
      | false =>
        simp only [ht, Bool.false_eq_true, if_false]
        rfl
    · rw [if_neg hk]
      rw [show rowMapInternals row = internalNames.foldl
        (fun o n => if truthy (objGet row n) then objSet o n (objGet row n) else o) []
        from rfl]
      rw [hout k hk]
      rfl
  constructor
  · intro k hk
    unfold rowMapColumnsFromKeysToNames
    rw [mapFold_miss cols (rowMapStripped row) (rowMapStripped row) (rowMapInternals row) k
      (by
        intro kv _ c hcol hname
        obtain ⟨hcmem, _⟩ := colOf_mem cols kv.1 c hcol
        exact hNI c hcmem (hname ▸ hk))]
    rw [hint k, if_pos hk]
  · intro k hne
    unfold rowMapColumnsFromKeysToNames at hne
    rcases mapFold_bound cols (rowMapStripped row) (rowMapStripped row)
      (rowMapInternals row) k hne with hacc | ⟨kv, hkv, c, hcol, hname⟩
    · by_cases hk : k ∈ internalNames
      · exact Or.inl hk
      · rw [hint k, if_neg hk] at hacc
        exact absurd rfl hacc
    · obtain ⟨hcmem, hckey⟩ := colOf_mem cols kv.1 c hcol
      refine Or.inr ⟨c, hcmem, hname, ?_⟩
      rw [hckey]
      exact objGetOpt_ne_none_of_mem row kv ((rowMapStripped_sublist row).mem hkv)

/-- Witness for C9: a truthy `_id` is preserved, a falsy (empty-string)
`_mtime` is dropped, the mapped column key `kk` surfaces as the column name
`Col`, and an unknown key `zz` is dropped. -/
theorem rowMapColumnsFromKeysToNames_keys_witness :
    objGetOpt (rowMapColumnsFromKeysToNames
        [("_id", JVal.vstr "r"), ("_mtime", JVal.vstr ""), ("kk", JVal.vnum 3),
         ("zz", JVal.vstr "q")]
        [MetaColumn.mk "kk" "Col" "text"]) "_id" = some (JVal.vstr "r") ∧
    objGetOpt (rowMapColumnsFromKeysToNames
        [("_id", JVal.vstr "r"), ("_mtime", JVal.vstr ""), ("kk", JVal.vnum 3),
         ("zz", JVal.vstr "q")]
        [MetaColumn.mk "kk" "Col" "text"]) "_mtime" = none ∧
    ("Col" ∈ internalNames ∨
      ∃ c ∈ [MetaColumn.mk "kk" "Col" "text"], c.name = "Col" ∧
        objGetOpt [("_id", JVal.vstr "r"), ("_mtime", JVal.vstr ""),
          ("kk", JVal.vnum 3), ("zz", JVal.vstr "q")] c.key ≠ none) := by
  have h := rowMapColumnsFromKeysToNames_keys
    [("_id", JVal.vstr "r"), ("_mtime", JVal.vstr ""), ("kk", JVal.vnum 3),
     ("zz", JVal.vstr "q")]
    [MetaColumn.mk "kk" "Col" "text"] (by decide)
  refine ⟨?_, ?_, ?_⟩
  · rw [h.1 "_id" (by decide)]
    rfl
  · rw [h.1 "_mtime" (by decide)]
    rfl
  · refine h.2 "Col" ?_
    rw [show objGetOpt (rowMapColumnsFromKeysToNames
        [("_id", JVal.vstr "r"), ("_mtime", JVal.vstr ""), ("kk", JVal.vnum 3),
         ("zz", JVal.vstr "q")]
        [MetaColumn.mk "kk" "Col" "text"]) "Col" = some (JVal.vnum 3) from rfl]
    intro hcontra
    exact Option.noConfusion hcontra

theorem charListLt_trans : ∀ x y z : List Char,
    charListLt x y = true → charListLt y z = true → charListLt x z = true := by
  intro x
  induction x with
  | nil =>
    intro y z hxy hyz
    cases y with
    | nil => simp [charListLt] at hxy
    | cons b bs =>
      cases z with
      | nil => simp [charListLt] at hyz
      | cons c cs => rfl
  | cons a as ih =>
    intro y z hxy hyz
    cases y with
    | nil => simp [charListLt] at hxy
    | cons b bs =>
      cases z with
      | nil => simp [charListLt] at hyz
      | cons c cs =>
        simp only [charListLt] at hxy hyz ⊢
        by_cases h1 : a.toNat < b.toNat
        · by_cases h2 : b.toNat < c.toNat
          · rw [if_pos (Nat.lt_trans h1 h2)]
          · rw [if_neg h2] at hyz
            by_cases h3 : c.toNat < b.toNat
            · rw [if_pos h3] at hyz
              exact absurd hyz (by simp)
            · have hac : a.toNat < c.toNat := by omega
              rw [if_pos hac]
        · rw [if_neg h1] at hxy
          by_cases h2 : b.toNat < a.toNat
          · rw [if_pos h2] at hxy
            exact absurd hxy (by simp)
          · rw [if_neg h2] at hxy
            by_cases h3 : b.toNat < c.toNat
            · have hac : a.toNat < c.toNat := by omega
              rw [if_pos hac]
            · rw [if_neg h3] at hyz
              by_cases h4 : c.toNat < b.toNat
              · rw [if_pos h4] at hyz
                exact absurd hyz (by simp)
              · rw [if_neg h4] at hyz
                have hac1 : ¬ a.toNat < c.toNat := by omega
                have hac2 : ¬ c.toNat < a.toNat := by omega
                rw [if_neg hac1, if_neg hac2]
                exact ih bs cs hxy hyz

theorem char_toNat_inj (a b : Char) (h : a.toNat = b.toNat) : a = b :=
  Char.ext (UInt32.ext h)

theorem charListLt_antisymm_eq : ∀ x y : List Char,
    charListLt x y = false → charListLt y x = false → x = y := by
  intro x
  induction x with
  | nil =>
    intro y hxy _
    cases y with
    | nil => rfl
    | cons b bs => simp [charListLt] at hxy
  | cons a as ih =>
    intro y hxy hyx
    cases y with
    | nil => simp [charListLt] at hyx
    | cons b bs =>
      simp only [charListLt] at hxy hyx
      by_cases h1 : a.toNat < b.toNat
      · rw [if_pos h1] at hxy
        exact absurd hxy (by simp)
      · by_cases h2 : b.toNat < a.toNat
        · rw [if_pos h2] at hyx
          exact absurd hyx (by simp)
        · rw [if_neg h1, if_neg h2] at hxy
          rw [if_neg h2, if_neg h1] at hyx
          have hab : a = b := char_toNat_inj a b (by omega)
          rw [hab, ih bs hxy hyx]

theorem strLt_trans (a b c : String) (h1 : strLt a b = true) (h2 : strLt b c = true) :
    strLt a c = true :=
  charListLt_trans a.data b.data c.data h1 h2

theorem strLt_antisymm_eq (a b : String) (h1 : strLt a b = false)
    (h2 : strLt b a = false) : a = b := by
  cases a with
  | mk da =>
    cases b with
    | mk db =>
      rw [charListLt_antisymm_eq da db h1 h2]

theorem rowKeyRel_total (columnName : String) (a b : Obj) :
    rowKeyRel columnName a b ∨ rowKeyRel columnName b a := by
  unfold rowKeyRel rowKeyLe
  cases h1 : strLt (jstrOf (objGet a columnName)) (jstrOf (objGet b columnName)) with
  | true => exact Or.inl (by simp)
  | false =>
    cases h2 : strLt (jstrOf (objGet b columnName)) (jstrOf (objGet a columnName)) with
    | true => exact Or.inr (by simp [h1])
    | false =>
      rcases le_total (jseqOf (objGet a "_seq")) (jseqOf (objGet b "_seq")) with h3 | h3
      · refine Or.inl ?_
        simp only [h2, Bool.false_eq_true, if_false]
        exact decide_eq_true h3
      · refine Or.inr ?_
        simp only [h1, Bool.false_eq_true, if_false]
        exact decide_eq_true h3

theorem rowKeyRel_trans (columnName : String) (a b c : Obj)
    (hab : rowKeyRel columnName a b) (hbc : rowKeyRel columnName b c) :
    rowKeyRel columnName a c := by
  unfold rowKeyRel rowKeyLe at hab hbc ⊢
  cases h1 : strLt (jstrOf (objGet a columnName)) (jstrOf (objGet b columnName)) with
  | true =>
    cases h2 : strLt (jstrOf (objGet b columnName)) (jstrOf (objGet c columnName)) with
    | true =>
      simp only [strLt_trans _ _ _ h1 h2, if_true]
    | false =>
      cases h3 : strLt (jstrOf (objGet c columnName)) (jstrOf (objGet b columnName)) with
      | true =>
        simp only [h2, h3, Bool.false_eq_true, if_false, if_true] at hbc
      | false =>
        have heq : jstrOf (objGet b columnName) = jstrOf (objGet c columnName) :=
          strLt_antisymm_eq _ _ h2 h3
        simp only [← heq, h1, if_true]
  | false =>
    cases h2 : strLt (jstrOf (objGet b columnName)) (jstrOf (objGet a columnName)) with
    | true =>
      simp only [h1, h2, Bool.false_eq_true, if_false, if_true] at hab
    | false =>
      have heqab : jstrOf (objGet a columnName) = jstrOf (objGet b columnName) :=
        strLt_antisymm_eq _ _ h1 h2
      simp only [h1, h2, Bool.false_eq_true, if_false] at hab
      have hseqab : jseqOf (objGet a "_seq") ≤ jseqOf (objGet b "_seq") :=
        of_decide_eq_true hab
      cases h3 : strLt (jstrOf (objGet b columnName)) (jstrOf (objGet c columnName)) with
      | true =>
        simp only [heqab, h3, if_true]
      | false =>
        cases h4 : strLt (jstrOf (objGet c columnName)) (jstrOf (objGet b columnName)) with
        | true =>
          simp only [h3, h4, Bool.false_eq_true, if_false, if_true] at hbc
        | false =>
          have heqbc : jstrOf (objGet b columnName) = jstrOf (objGet c columnName) :=
            strLt_antisymm_eq _ _ h3 h4
          simp only [h3, h4, Bool.false_eq_true, if_false] at hbc
          have hseqbc : jseqOf (objGet b "_seq") ≤ jseqOf (objGet c "_seq") :=
            of_decide_eq_true hbc
          have hac1 : strLt (jstrOf (objGet a columnName)) (jstrOf (objGet c columnName)) = false := by
            rw [heqab, heqbc] at h1 ⊢
            exact h1
          have hac2 : strLt (jstrOf (objGet c columnName)) (jstrOf (objGet a columnName)) = false := by
            rw [heqab, heqbc] at h2 ⊢
            exact h2
          simp only [hac1, hac2, Bool.false_eq_true, if_false]
          exact decide_eq_true (le_trans hseqab hseqbc)

theorem seqAssign_length : ∀ (i0 : Nat) (l : List Obj),
    (seqAssign i0 l).length = l.length := by
  intro i0 l
  induction l generalizing i0 with
  | nil => rfl
  | cons r rs ih => simp [seqAssign, ih]

theorem seqAssign_getD : ∀ (l : List Obj) (i0 i : Nat), i < l.length →
    (seqAssign i0 l).getD i []
      = objSet (l.getD i []) "_seq" (JVal.vnum ((i0 + i : Nat) + 1)) := by
  intro l
  induction l with
  | nil => intro i0 i hi; simp at hi
  | cons r rs ih =>
    intro i0 i hi
    match i with
    | 0 => simp [seqAssign]
    | Nat.succ j =>
      have hj : j < rs.length := Nat.lt_of_succ_lt_succ hi
      simp only [seqAssign, List.getD_cons_succ]
      rw [ih (i0 + 1) j hj]
      congr 2
      push_cast
      ring

theorem seqAssign_mem_hasSeq : ∀ (l : List Obj) (i0 : Nat) (r : Obj),
    r ∈ seqAssign i0 l → isUndef (objGet r "_seq") = false := by
  intro l
  induction l with
  | nil => intro i0 r h; exact absurd h (List.not_mem_nil r)
  | cons x xs ih =>
    intro i0 r h
    rcases List.mem_cons.mp h with heq | hmem
    · subst heq
      rw [objGet_objSet_self]
      rfl
    · exact ih (i0 + 1) r hmem

/-- C6: for a non-empty row collection, if the first row has no `_seq` field
then `rowsSequence` assigns `_seq = 1, 2, ..., n` to the rows in their
current order; if the first row already has a `_seq` field the whole
collection is returned unchanged — even when some later row lacks `_seq`,
since only the first row is inspected. -/
theorem rowsSequence_spec (r : Obj) (rs : List Obj) :
    (isUndef (objGet r "_seq") = true →
      (rowsSequence (r :: rs)).length = (r :: rs).length ∧
      (∀ i, i < (r :: rs).length →
        (rowsSequence (r :: rs)).getD i []
          = objSet ((r :: rs).getD i []) "_seq" (JVal.vnum ((i : Nat) + 1)))) ∧
    (isUndef (objGet r "_seq") = false → rowsSequence (r :: rs) = r :: rs) := by
  constructor
  · intro h
    rw [show rowsSequence (r :: rs)
      = if isUndef (objGet r "_seq") then seqAssign 0 (r :: rs) else r :: rs from rfl]
    rw [h, if_pos rfl]
    refine ⟨seqAssign_length 0 (r :: rs), ?_⟩
    intro i hi
    rw [seqAssign_getD (r :: rs) 0 i hi]
    congr 2
    omega
  · intro h
    rw [show rowsSequence (r :: rs)
      = if isUndef (objGet r "_seq") then seqAssign 0 (r :: rs) else r :: rs from rfl]
    rw [h]
    rfl

/-- Witness for C6: fresh rows get `_seq = 1, 2`; a collection whose first
row has `_seq = 5` is untouched even though its second row lacks `_seq`. -/
theorem rowsSequence_spec_witness :
    rowsSequence [[("_ctime", JVal.vstr "T0")], [("_ctime", JVal.vstr "T1")]]
      = [[("_ctime", JVal.vstr "T0"), ("_seq", JVal.vnum 1)],
         [("_ctime", JVal.vstr "T1"), ("_seq", JVal.vnum 2)]] ∧
    rowsSequence [[("_seq", JVal.vnum 5)], [("_ctime", JVal.vstr "T1")]]
      = [[("_seq", JVal.vnum 5)], [("_ctime", JVal.vstr "T1")]] := by
  have h2 := (rowsSequence_spec [("_seq", JVal.vnum 5)]
    [[("_ctime", JVal.vstr "T1")]]).2 (by rfl)
  exact ⟨rfl, h2⟩

theorem rowsSequence_noop (l : List Obj)
    (h : ∀ r ∈ l, isUndef (objGet r "_seq") = false) : rowsSequence l = l := by
  cases l with
  | nil => rfl
  | cons r rs =>
    rw [show rowsSequence (r :: rs)
      = if isUndef (objGet r "_seq") then seqAssign 0 (r :: rs) else r :: rs from rfl]
    rw [h r (List.mem_cons_self r rs)]
    rfl

theorem rowsSequence_all_hasSeq (rows : List Obj)
    (hfresh : ∀ r ∈ rows, isUndef (objGet r "_seq") = true) :
    ∀ r ∈ rowsSequence rows, isUndef (objGet r "_seq") = false := by
  cases rows with
  | nil => intro r h; exact absurd h (List.not_mem_nil r)
  | cons x xs =>
    intro r h
    rw [show rowsSequence (x :: xs)
      = if isUndef (objGet x "_seq") then seqAssign 0 (x :: xs) else x :: xs from rfl,
      hfresh x (List.mem_cons_self x xs), if_pos rfl] at h
    exact seqAssign_mem_hasSeq (x :: xs) 0 r h

/-- C5: on a collection of freshly fetched rows (no `_seq` yet, as for all
rows returned by the paginator), `rowsTimeFilter` keeps exactly the rows
whose value in the timestamp column is a string strictly greater than the
cursor under string comparison (rows equal to the cursor are removed),
preserving their relative order, and `rowsTimeSort` then produces a
permutation of the kept rows sorted ascending by the timestamp column with
ties ordered by the previously assigned arrival-order `_seq` number. -/
theorem rowsTimeFilterSort_spec (rows : List Obj) (col cur : String)
    (hfresh : ∀ r ∈ rows, isUndef (objGet r "_seq") = true) :
    (rowsTimeFilter rows col cur).Sublist (rowsSequence rows) ∧
    (∀ r ∈ rowsSequence rows,
      (r ∈ rowsTimeFilter rows col cur ↔
        ∃ s, objGet r col = JVal.vstr s ∧ strLt cur s = true)) ∧
    (rowsTimeSort (rowsTimeFilter rows col cur) col).Perm
      (rowsTimeFilter rows col cur) ∧
    List.Pairwise (rowKeyRel col) (rowsTimeSort (rowsTimeFilter rows col cur) col) := by
  have hXseq : ∀ r ∈ rowsTimeFilter rows col cur, isUndef (objGet r "_seq") = false := by
    intro r h
    have h2 : r ∈ rowsSequence rows := (List.mem_filter.mp h).1
    exact rowsSequence_all_hasSeq rows hfresh r h2
  have hXnoop : rowsSequence (rowsTimeFilter rows col cur) = rowsTimeFilter rows col cur :=
    rowsSequence_noop _ hXseq
  have hsort : rowsTimeSort (rowsTimeFilter rows col cur) col
      = List.insertionSort (rowKeyRel col) (rowsTimeFilter rows col cur) := by
    rw [show rowsTimeSort (rowsTimeFilter rows col cur) col
      = List.insertionSort (rowKeyRel col)
          (rowsSequence (rowsTimeFilter rows col cur)) from rfl, hXnoop]
  haveI : IsTotal Obj (rowKeyRel col) := ⟨rowKeyRel_total col⟩
  haveI : IsTrans Obj (rowKeyRel col) := ⟨fun a b c => rowKeyRel_trans col a b c⟩
  refine ⟨List.filter_sublist _, ?_, ?_, ?_⟩
  · intro r hr
    constructor
    · intro hmem
      have hpred := (List.mem_filter.mp hmem).2
      cases hval : objGet r col with
      | vstr s =>
        rw [hval] at hpred
        exact ⟨s, rfl, hpred⟩
      | vundef => rw [hval] at hpred; exact absurd hpred (by simp [timeGt])
      | vnull => rw [hval] at hpred; exact absurd hpred (by simp [timeGt])
      | vbool b => rw [hval] at hpred; exact absurd hpred (by simp [timeGt])
      | vnum n => rw [hval] at hpred; exact absurd hpred (by simp [timeGt])
      | varr xs => rw [hval] at hpred; exact absurd hpred (by simp [timeGt])
      | vobj => rw [hval] at hpred; exact absurd hpred (by simp [timeGt])
      | vfun => rw [hval] at hpred; exact absurd hpred (by simp [timeGt])
    · intro hex
      obtain ⟨s, hs, hlt⟩ := hex
      refine List.mem_filter.mpr ⟨hr, ?_⟩
      rw [hs]
      exact hlt
  · rw [hsort]
    exact List.perm_insertionSort (rowKeyRel col) (rowsTimeFilter rows col cur)
  · rw [hsort]
    exact List.sorted_insertionSort (rowKeyRel col) (rowsTimeFilter rows col cur)

/-- Witness for C5 at the claim's example: rows arriving with timestamps
`[T0, T2, T1]` and cursor `T0` — the `T0` row is removed (its timestamp
equals the cursor) and, after sorting, the `T1` row (arrival sequence 3)
precedes the `T2` row (arrival sequence 2). -/
theorem rowsTimeFilterSort_spec_witness :
    (rowsTimeFilter
        [[("_ctime", JVal.vstr "T0")], [("_ctime", JVal.vstr "T2")],
         [("_ctime", JVal.vstr "T1")]] "_ctime" "T0").Sublist
      (rowsSequence
        [[("_ctime", JVal.vstr "T0")], [("_ctime", JVal.vstr "T2")],
         [("_ctime", JVal.vstr "T1")]]) ∧
    rowsTimeFilter
        [[("_ctime", JVal.vstr "T0")], [("_ctime", JVal.vstr "T2")],
         [("_ctime", JVal.vstr "T1")]] "_ctime" "T0"
      = [[("_ctime", JVal.vstr "T2"), ("_seq", JVal.vnum 2)],
         [("_ctime", JVal.vstr "T1"), ("_seq", JVal.vnum 3)]] ∧
    rowsTimeSort
        (rowsTimeFilter
          [[("_ctime", JVal.vstr "T0")], [("_ctime", JVal.vstr "T2")],
           [("_ctime", JVal.vstr "T1")]] "_ctime" "T0") "_ctime"
      = [[("_ctime", JVal.vstr "T1"), ("_seq", JVal.vnum 3)],
         [("_ctime", JVal.vstr "T2"), ("_seq", JVal.vnum 2)]] := by
  have h := rowsTimeFilterSort_spec
    [[("_ctime", JVal.vstr "T0")], [("_ctime", JVal.vstr "T2")],
     [("_ctime", JVal.vstr "T1")]] "_ctime" "T0"
    (by
      intro r hr
      fin_cases hr <;> rfl)
  refine ⟨h.1, ?_, ?_⟩
  · rfl
  · rfl

-- Equation lemmas for the match attempt, the spec splitter, the unescaper
-- and the split loop at each input shape.

theorem scanTok_esc (c : Char) (rest : List Char) :
    scanTok ('\\' :: c :: rest)
      = match scanTok rest with
        | none => none
        | some (ts, r) => some (ETok.esc c :: ts, r) := rfl

theorem scanTok_comma (rest : List Char) :
    scanTok (',' :: rest) = some ([], some rest) := rfl

theorem scanTok_plain (c : Char) (rest : List Char) (hb : c ≠ '\\')
    (hc : c ≠ ',') :
    scanTok (c :: rest)
      = match scanTok rest with
        | none => none
        | some (ts, r) => some (ETok.plain c :: ts, r) := by
  simp [scanTok, hb, hc]

theorem noDangling_esc (c : Char) (rest : List Char) :
    noDanglingBackslash ('\\' :: c :: rest) = noDanglingBackslash rest := rfl

theorem noDangling_other (c : Char) (rest : List Char) (hb : c ≠ '\\') :
    noDanglingBackslash (c :: rest) = noDanglingBackslash rest := by
  cases rest with
  | nil => simp [noDanglingBackslash, hb]
  | cons d rest2 => simp [noDanglingBackslash, hb]

theorem unescChars_pair (c : Char) (l : List Char) :
    unescChars ('\\' :: c :: l) = c :: unescChars l := rfl

theorem unescChars_plain (c : Char) (l : List Char) (hb : c ≠ '\\') :
    unescChars (c :: l) = c :: unescChars l := by
  cases l with
  | nil => simp [unescChars, hb]
  | cons d l2 => simp [unescChars, hb]

theorem jsSplitGo_nil (fuel : Nat) (skip : List Char) (acc : List String) :
    jsSplitGo fuel [] skip acc = (String.mk skip.reverse :: acc).reverse := by
  cases fuel with
  | zero => rfl
  | succ f => rfl

theorem jsSplitGo_cons (fuel : Nat) (c : Char) (rest skip : List Char)
    (acc : List String) :
    jsSplitGo (fuel + 1) (c :: rest) skip acc
      = match scanTok (c :: rest) with
        | none => jsSplitGo fuel rest (c :: skip) acc
        | some (units, restOpt) =>
          match restOpt with
          | some rest2 =>
            jsSplitGo fuel rest2 []
              (String.mk (escRender (trimToks units))
                :: String.mk skip.reverse :: acc)
          | none =>
            ("" :: String.mk (escRender (trimToks units))
              :: String.mk skip.reverse :: acc).reverse := rfl

theorem jsSplitGo_cons_none (fuel : Nat) (c : Char) (rest skip : List Char)
    (acc : List String) (h : scanTok (c :: rest) = none) :
    jsSplitGo (fuel + 1) (c :: rest) skip acc
      = jsSplitGo fuel rest (c :: skip) acc := by
  rw [jsSplitGo_cons, h]

theorem jsSplitGo_cons_comma (fuel : Nat) (c : Char) (rest skip : List Char)
    (acc : List String) (u : List ETok) (rest2 : List Char)
    (h : scanTok (c :: rest) = some (u, some rest2)) :
    jsSplitGo (fuel + 1) (c :: rest) skip acc
      = jsSplitGo fuel rest2 []
          (String.mk (escRender (trimToks u)) :: String.mk skip.reverse :: acc) := by
  rw [jsSplitGo_cons, h]

theorem jsSplitGo_cons_end (fuel : Nat) (c : Char) (rest skip : List Char)
    (acc : List String) (u : List ETok)
    (h : scanTok (c :: rest) = some (u, none)) :
    jsSplitGo (fuel + 1) (c :: rest) skip acc
      = ("" :: String.mk (escRender (trimToks u))
          :: String.mk skip.reverse :: acc).reverse := by
  rw [jsSplitGo_cons, h]

theorem specSegs_esc (d : Char) (rest2 : List Char) :
    specSegs ('\\' :: d :: rest2)
      = (match specSegs rest2 with
         | ([], m) => ([[ETok.esc d]], m)
         | (s :: ss, m) => ((ETok.esc d :: s) :: ss, m)) := rfl

theorem specSegs_comma (rest : List Char) :
    specSegs (',' :: rest) = ([] :: (specSegs rest).1, (specSegs rest).2) := rfl

theorem specSegs_plain (c : Char) (rest : List Char) (hb : c ≠ '\\')
    (hc : c ≠ ',') :
    specSegs (c :: rest)
      = (match specSegs rest with
         | ([], m) => ([[ETok.plain c]], m)
         | (s :: ss, m) => ((ETok.plain c :: s) :: ss, m)) := by
  simp [specSegs, hb, hc]

theorem stringMk_ne_empty (l : List Char) (h : l ≠ []) : String.mk l ≠ "" := by
  intro he
  have h2 := congrArg String.data he
  simp at h2
  exact h h2

theorem dropWhile_subset_self (p : ETok → Bool) :
    ∀ (l : List ETok) (t : ETok), t ∈ l.dropWhile p → t ∈ l := by
  intro l
  induction l with
  | nil => intro t h; simpa using h
  | cons a l2 ih =>
    intro t h
    cases hp : p a with
    | true =>
      simp only [List.dropWhile_cons, hp, if_true] at h
      exact List.mem_cons_of_mem a (ih t h)
    | false =>
      simp only [List.dropWhile_cons, hp, Bool.false_eq_true, if_false] at h
      exact h

theorem mem_trimToks (ts : List ETok) (t : ETok) (h : t ∈ trimToks ts) :
    t ∈ ts := by
  unfold trimToks at h
  rw [List.mem_reverse] at h
  have h2 := dropWhile_subset_self isPlainSpace _ t h
  rw [List.mem_reverse] at h2
  exact dropWhile_subset_self isPlainSpace _ t h2

theorem trimToks_all (u : List ETok) (hall : u.all etokNoBS = true) :
    (trimToks u).all etokNoBS = true := by
  rw [List.all_eq_true] at hall ⊢
  intro t ht
  exact hall t (mem_trimToks u t ht)

theorem escRender_ne_nil (ts : List ETok) (h : ts ≠ []) : escRender ts ≠ [] := by
  cases ts with
  | nil => exact absurd rfl h
  | cons t rest =>
    cases t with
    | plain c => simp [escRender]
    | esc c => simp [escRender]

/-- Unescaping the raw text of backslash-free units recovers the characters
they stand for. -/
theorem unesc_escRender : ∀ ts : List ETok, ts.all etokNoBS = true →
    unescChars (escRender ts) = ts.map unescTok := by
  intro ts
  induction ts with
  | nil => intro h; rfl
  | cons t rest ih =>
    intro h
    rw [List.all_cons, Bool.and_eq_true] at h
    cases t with
    | plain c =>
      have hb : c ≠ '\\' := by
        have h1 := h.1
        simp only [etokNoBS, Bool.not_eq_true', beq_eq_false_iff_ne, ne_eq] at h1
        exact h1
      rw [show escRender (ETok.plain c :: rest) = c :: escRender rest from rfl,
        unescChars_plain c _ hb, ih h.2]
      rfl
    | esc c =>
      rw [show escRender (ETok.esc c :: rest) = '\\' :: c :: escRender rest from rfl,
        unescChars_pair, ih h.2]
      rfl

theorem splitPost_append (a b : List String) :
    splitPost (a ++ b) = splitPost a ++ splitPost b := by
  unfold splitPost
  rw [List.filter_append, List.map_append]

theorem splitPost_nil_str : splitPost [String.mk ([] : List Char)] = [] := by
  decide

theorem splitPost_empty : splitPost [""] = [] := by
  decide

/-- The filter-and-unescape stage on a single emitted capture: the trimmed
units rendered raw, then unescaped, give the trimmed token — or nothing when
the trim left no unit. -/
theorem splitPost_capture (u : List ETok) (hall : u.all etokNoBS = true) :
    splitPost [String.mk (escRender (trimToks u))]
      = if (trimToks u).isEmpty then []
        else [String.mk ((trimToks u).map unescTok)] := by
  cases he : (trimToks u).isEmpty with
  | true =>
    have hnil : trimToks u = [] := by
      cases htt : trimToks u with
      | nil => rfl
      | cons a l => rw [htt] at he; simp at he
    rw [hnil]
    decide
  | false =>
    have hnil : trimToks u ≠ [] := by
      intro hc; rw [hc] at he; simp at he
    have hmk : (String.mk (escRender (trimToks u)) == "") = false := by
      rw [beq_eq_false_iff_ne]
      exact stringMk_ne_empty _ (escRender_ne_nil _ hnil)
    simp only [he, Bool.false_eq_true, if_false]
    unfold splitPost
    simp only [List.filter_cons, hmk, Bool.not_false, if_true, List.filter_nil,
      List.map_cons, List.map_nil]
    rw [unesc_escRender (trimToks u) (trimToks_all u hall)]

/-- On input whose backslashes all escape a following character, the match
attempt succeeds, its units are backslash-free, and it decomposes the
spec-side splitter: the consumed units are the first spec segment, a comma
delimiter leaves exactly the remaining (still well-formed) input, an end
delimiter leaves none. -/
theorem scanTok_wf : ∀ (n : Nat) (cs : List Char), cs.length ≤ n →
    noDanglingBackslash cs = true →
    ∃ u ropt, scanTok cs = some (u, ropt)
      ∧ u.all etokNoBS = true
      ∧ (∀ rest2, ropt = some rest2 →
          specSegs cs = (u :: (specSegs rest2).1, (specSegs rest2).2)
          ∧ noDanglingBackslash rest2 = true ∧ rest2.length < cs.length)
      ∧ (ropt = none → specSegs cs = ([u], false)) := by
  intro n
  induction n with
  | zero =>
    intro cs hlen hnd
    match cs with
    | [] =>
      refine ⟨[], none, rfl, rfl, ?_, ?_⟩
      · intro rest2 hr; exact absurd hr (by simp)
      · intro _; rfl
    | c :: rest => simp at hlen
  | succ n ih =>
    intro cs hlen hnd
    match cs with
    | [] =>
      refine ⟨[], none, rfl, rfl, ?_, ?_⟩
      · intro rest2 hr; exact absurd hr (by simp)
      · intro _; rfl
    | c :: rest =>
      by_cases hb : c = '\\'
      · subst hb
        match rest with
        | [] => exact absurd hnd (by decide)
        | d :: rest2' =>
          have hnd2 : noDanglingBackslash rest2' = true := by
            rw [← noDangling_esc d rest2']; exact hnd
          obtain ⟨u', ropt', hscan, hall, hsome, hnone⟩ :=
            ih rest2' (by simp at hlen ⊢; omega) hnd2
          refine ⟨ETok.esc d :: u', ropt', ?_, ?_, ?_, ?_⟩
          · rw [scanTok_esc, hscan]
          · simp [List.all_cons, etokNoBS, hall]
          · intro r2 hr
            obtain ⟨hseg, hndr, hlt⟩ := hsome r2 hr
            refine ⟨?_, hndr, ?_⟩
            · rw [specSegs_esc, hseg]
            · simp only [List.length_cons]; omega
          · intro hr
            have hseg := hnone hr
            rw [specSegs_esc, hseg]
      · by_cases hc : c = ','
        · subst hc
          have hnd2 : noDanglingBackslash rest = true := by
            rw [← noDangling_other ',' rest (by decide)]; exact hnd
          refine ⟨[], some rest, scanTok_comma rest, rfl, ?_, ?_⟩
          · intro r2 hr
            have hre : rest = r2 := by simpa using hr
            subst hre
            refine ⟨specSegs_comma rest, hnd2, ?_⟩
            simp only [List.length_cons]; omega
          · intro hr; exact absurd hr (by simp)
        · have hnd2 : noDanglingBackslash rest = true := by
            rw [← noDangling_other c rest hb]; exact hnd
          obtain ⟨u', ropt', hscan, hall, hsome, hnone⟩ :=
            ih rest (by simp at hlen ⊢; omega) hnd2
          refine ⟨ETok.plain c :: u', ropt', ?_, ?_, ?_, ?_⟩
          · rw [scanTok_plain c rest hb hc, hscan]
          · simp [List.all_cons, etokNoBS, hall, hb]
          · intro r2 hr
            obtain ⟨hseg, hndr, hlt⟩ := hsome r2 hr
            refine ⟨?_, hndr, ?_⟩
            · rw [specSegs_plain c rest hb hc, hseg]
            · simp only [List.length_cons]; omega
          · intro hr
            have hseg := hnone hr
            rw [specSegs_plain c rest hb hc, hseg]

/-- On well-formed input the split loop never retries: every emitted piece
is empty, and after the length filter and the unescaping map the output is
the spec-side token list of the remaining input, appended to what the
already-emitted prefix and the pending piece contribute. -/
theorem jsSplitGo_wf : ∀ (n : Nat) (cs : List Char), cs.length ≤ n →
    ∀ fuel : Nat, cs.length ≤ fuel → noDanglingBackslash cs = true →
    ∀ (skip : List Char) (acc : List String),
      splitPost (jsSplitGo fuel cs skip acc)
        = splitPost (acc.reverse ++ [String.mk skip.reverse])
          ++ specTokens (specSegs cs).1 := by
  intro n
  induction n with
  | zero =>
    intro cs hlen
    match cs with
    | [] =>
      intro fuel hf hnd skip acc
      rw [jsSplitGo_nil]
      simp [specSegs, specTokens, trimToks]
    | c :: rest => simp at hlen
  | succ n ih =>
    intro cs hlen
    match cs with
    | [] =>
      intro fuel hf hnd skip acc
      rw [jsSplitGo_nil]
      simp [specSegs, specTokens, trimToks]
    | c :: rest =>
      intro fuel hf hnd skip acc
      obtain ⟨u, ropt, hscan, hall, hsome, hnone⟩ :=
        scanTok_wf (c :: rest).length (c :: rest) le_rfl hnd
      cases fuel with
      | zero => simp at hf
      | succ f =>
        cases ropt with
        | none =>
          have hseg := hnone rfl
          rw [jsSplitGo_cons_end f c rest skip acc u hscan, hseg]
          rw [show (("" : String) :: String.mk (escRender (trimToks u))
                :: String.mk skip.reverse :: acc).reverse
              = acc.reverse ++ [String.mk skip.reverse]
                ++ [String.mk (escRender (trimToks u))] ++ [""] by simp]
          rw [splitPost_append, splitPost_append, splitPost_append,
            splitPost_capture u hall, splitPost_empty]
          simp [specTokens]
        | some rest2 =>
          obtain ⟨hseg, hnd2, hlt⟩ := hsome rest2 rfl
          rw [jsSplitGo_cons_comma f c rest skip acc u rest2 hscan, hseg]
          rw [ih rest2 (by simp only [List.length_cons] at hlen hlt; omega)
            f (by simp only [List.length_cons] at hf hlt; omega) hnd2 []
            (String.mk (escRender (trimToks u)) :: String.mk skip.reverse :: acc)]
          simp only [List.reverse_nil]
          rw [show ((String.mk (escRender (trimToks u))
                :: String.mk skip.reverse :: acc).reverse
                ++ [String.mk ([] : List Char)])
              = acc.reverse ++ [String.mk skip.reverse]
                ++ [String.mk (escRender (trimToks u))]
                ++ [String.mk ([] : List Char)] by simp]
          rw [splitPost_append, splitPost_append, splitPost_append,
            splitPost_capture u hall, splitPost_nil_str]
          simp [specTokens]

/-- No token the spec-side algorithm emits is the empty string. -/
theorem specTokens_ne_empty : ∀ (segs : List (List ETok)) (t : String),
    t ∈ specTokens segs → t ≠ "" := by
  intro segs
  induction segs with
  | nil => intro t ht; exact absurd ht (List.not_mem_nil t)
  | cons seg rest ih =>
    intro t ht
    rw [show specTokens (seg :: rest)
      = (if (trimToks seg).isEmpty then []
         else [String.mk ((trimToks seg).map unescTok)]) ++ specTokens rest
      from rfl] at ht
    rcases List.mem_append.mp ht with h1 | h2
    · cases he : (trimToks seg).isEmpty with
      | true => rw [he] at h1; simp at h1
      | false =>
        rw [he] at h1
        have hts : t = String.mk ((trimToks seg).map unescTok) := by simpa using h1
        rw [hts]
        refine stringMk_ne_empty _ ?_
        simp only [ne_eq, List.map_eq_nil_iff]
        intro hc
        rw [hc] at he
        simp at he
    · exact ih t h2

/-- C2 counterexample: the input `" A \"` (space, `A`, space, lone trailing
backslash) produces the single token `" A \"` with its surrounding
whitespace intact — no attempt of the separator regex inside this input can
match (every retry position faces a comma-free remainder ending in an
unpaired backslash), so `split` emits the whole raw remainder —
contradicting the claim that surrounding whitespace is trimmed from every
token (which would give `"A \"`). -/
theorem columnNamesToArray_untrimmed_counterexample :
    columnNamesToArray " A \\" = [" A \\"] ∧
    columnNamesToArray " A \\" ≠ ["A \\"] := by
  exact ⟨by decide, by decide⟩

/-- C2 (amended): for every input in which each backslash escapes a
following character — the input does not end in an unpaired backslash —
`columnNamesToArray` splits on unescaped commas, trims surrounding plain
whitespace from each token, replaces every backslash-escape pair by the
escaped character, drops empty tokens and reserved internal field names, and
deduplicates keeping first occurrences in first-seen order: equality with
the spec-side algorithm `specColumnNamesToArray`.  (On an input ending in an
unpaired backslash the separator regex stops matching and the split
re-anchors inside the malformed tail, emitting raw untrimmed pieces — the
counterexample.)  The claim's four examples are included. -/
theorem columnNamesToArray_spec :
    (∀ s : String, noDanglingBackslash s.data = true →
      columnNamesToArray s = specColumnNamesToArray s) ∧
    columnNamesToArray "Title,Surname" = ["Title", "Surname"] ∧
    columnNamesToArray "A\\,B,C" = ["A,B", "C"] ∧
    columnNamesToArray "_id,Title" = ["Title"] ∧
    columnNamesToArray "" = [] := by
  refine ⟨?_, by decide, by decide, by decide, by decide⟩
  intro s hnd
  unfold columnNamesToArray specColumnNamesToArray
  cases hs : s == "" with
  | true => simp [hs]
  | false =>
    simp only [hs, Bool.false_eq_true, if_false]
    unfold jsSplit
    rw [jsSplitGo_wf s.data.length s.data le_rfl s.data.length le_rfl hnd [] []]
    simp only [List.reverse_nil, List.nil_append]
    rw [splitPost_nil_str, List.nil_append]
    congr 1
    apply List.filter_congr
    intro t htmem
    have hne := specTokens_ne_empty _ t htmem
    have hf : (t == "") = false := by
      simp only [beq_eq_false_iff_ne]
      exact hne
    simp [hf]

/-- Witness for C2's universal part at the example input `"A\,B,C"`, which
does not end in an unpaired backslash. -/
theorem columnNamesToArray_spec_witness :
    noDanglingBackslash ("A\\,B,C" : String).data = true ∧
    columnNamesToArray "A\\,B,C" = specColumnNamesToArray "A\\,B,C" :=
  ⟨by decide, columnNamesToArray_spec.1 "A\\,B,C" (by decide)⟩

/-- C4 counterexample: on a table whose columns are `Title` then `Surname`,
a user request of `"Title"` (which `columnNamesToArray` parses to
`["Title"]`) produces the final list `["Title", "Title"]` — the first
declared column appears twice, so the final list is not deduplicated. -/
theorem finalColumnNames_counterexample :
    columnNamesToArray "Title" = ["Title"] ∧
    finalColumnNames
        [MetaColumn.mk "0000" "Title" "text", MetaColumn.mk "0001" "Surname" "text"]
        (columnNamesToArray "Title")
      = some ["Title", "Title"] ∧
    ¬ (["Title", "Title"] : List String).Nodup := by
  refine ⟨by decide, by decide, by decide⟩

/-- C4 (amended): for a table with at least one column, the final column
list exists and is the table's first declared column name followed by the
requested names, restricted to names that occur in the column metadata
(unknown names silently dropped, never an error), in that order; it is *not*
deduplicated, so the first declared column occurs twice when the user
explicitly requests it (and only a requested name equal to the first
declared column can be duplicated, when the request list itself is
duplicate-free).  The second conjunct is the spec's own example:
`["Surname", "Ghost"]` on columns `Title, Surname` gives
`["Title", "Surname"]`. -/
theorem finalColumnNames_spec :
    (∀ (c0 : MetaColumn) (rest : List MetaColumn) (req : List String),
      ∃ l, finalColumnNames (c0 :: rest) req = some l ∧
        (∀ n, n ∈ l ↔
          ((n = c0.name ∨ n ∈ req) ∧ ∃ c, c ∈ c0 :: rest ∧ c.name = n)) ∧
        l.Sublist (c0.name :: req)) ∧
    finalColumnNames
        [MetaColumn.mk "0000" "Title" "text", MetaColumn.mk "0001" "Surname" "text"]
        (columnNamesToArray "Surname,Ghost")
      = some ["Title", "Surname"] := by
  constructor
  · intro c0 rest req
    refine ⟨(c0.name :: req).filter
      (fun n => (c0 :: rest).any (fun column => column.name == n)), rfl, ?_, ?_⟩
    · intro n
      constructor
      · intro hn
        have h1 := List.mem_filter.mp hn
        refine ⟨by simpa using h1.1, ?_⟩
        have h2 := h1.2
        simp only [List.any_eq_true, beq_iff_eq] at h2
        obtain ⟨c, hc, hcn⟩ := h2
        exact ⟨c, hc, hcn⟩
      · intro ⟨h1, c, hc, hcn⟩
        refine List.mem_filter.mpr ⟨?_, ?_⟩
        · simpa using h1
        · simp only [List.any_eq_true, beq_iff_eq]
          exact ⟨c, hc, hcn⟩
    · exact List.filter_sublist _
  · decide

/-- C8: a poll whose fetched row collection is empty returns `null` — no
output items and no error — whatever the mode, trigger column, metadata,
requested columns and cursor are.  (`apiRequestAllItems` always hands the
trigger an array, so the collection is a list and the claim's
rows-not-an-array proviso cannot arise.) -/
theorem pollAfterFetch_empty (mode : PollMode) (triggerColumn : String)
    (dtableColumns : List MetaColumn) (requestedNames : List String)
    (startDate : String) :
    pollAfterFetch mode triggerColumn dtableColumns requestedNames startDate []
      = Except.ok none := rfl
